import Mathlib

/-!
Verification of the ageing simulator's churn engine (`src/network/network.rs`,
`src/network/churn.rs`, `src/main.rs`).  The network-level dispatcher is embedded
from the source; the leaf components whose files are not part of the sources
(`prefix.rs`, `node.rs`, `section.rs`, `random.rs`, `params.rs`) are modelled from
the specification, as marked on each such definition.

A binary prefix is represented as its list of bits, most significant bit first.
Names are natural numbers standing for the 64-bit node identifiers; the RNG is
modelled as a stream (list) of naturals carried inside the network state, one
entry per draw the source performs.
-/

/-- A binary prefix of a 64-bit name: the list of its bits, most significant
bit first.  The empty list is the root prefix of length 0. -/
abbrev Pfx : Type := List Bool

/-- Numeric value of a bit, used to convert prefixes to numbers. -/
def bitVal (b : Bool) : Nat := if b then 1 else 0

/-- The value of the bit string of a prefix read as a binary numeral
(the `bits` field of the source's `Prefix`, right aligned). -/
def pfxToNat (p : Pfx) : Nat := p.foldl (fun a b => 2 * a + bitVal b) 0

/-- Modelled from the spec: `prefix.rs` is not in src/.  §4.1:
`matches(prefix, name) ≡ (name >> (64 − prefix.len)) == prefix.bits`;
the empty prefix matches every name. -/
def pfxMatches (p : Pfx) (name : Nat) : Bool :=
  name / 2 ^ (64 - p.length) == pfxToNat p

/-- Modelled from the spec: `prefix.rs` is not in src/.  §4.1 `is_ancestor`:
the first prefix is a proper or improper leading prefix of the second.
With most-significant-bit-first lists this is the list-prefix relation. -/
def isAnc : Pfx → Pfx → Bool
  | [], _ => true
  | _, [] => false
  | a :: as_, b :: bs => a == b && isAnc as_ bs

/-- Modelled from the spec: `prefix.rs` is not in src/.  §4.1
`is_compatible_with(other) ≡ self.is_ancestor(other) ∨ other.is_ancestor(self)`. -/
def isCompat (p q : Pfx) : Bool := isAnc p q || isAnc q p

/-- Modelled from the spec: `prefix.rs` is not in src/.  §4.1 `is_neighbour`:
equal length, and the bit strings differ exactly in the last bit, i.e. the
two prefixes share the same parent and are distinct. -/
def isNbr (p q : Pfx) : Bool :=
  p.length == q.length && decide (0 < p.length) && p.dropLast == q.dropLast && p != q

/-- Modelled from the spec: `prefix.rs` is not in src/.  §4.1 `shorten()`:
drop the last bit.  (The source fails on the empty prefix; the root never
requests a merge, so the total extension is never exercised.) -/
def pfxShorten (p : Pfx) : Pfx := p.dropLast

/-- Modelled from the spec: `prefix.rs` is not in src/.  §4.1 `extend(bit)`:
append `bit`, producing a prefix one bit longer. -/
def pfxExtend (p : Pfx) (b : Bool) : Pfx := p ++ [b]

/-- Longest common leading prefix of two prefixes: the nearest common ancestor.
§4.3 gives the merged section the parent prefix of two sibling sections; the
nearest common ancestor is the same prefix in that case. -/
def lcp : Pfx → Pfx → Pfx
  | a :: as_, b :: bs => if a = b then a :: lcp as_ bs else []
  | _, _ => []

/-- Modelled from the spec: §4.1 total order on prefixes, lexicographic by the
(left-aligned) bit value and then by length; this is the iteration order of the
source's `BTreeMap` keyed by `Prefix`. -/
def pfxVal64 (p : Pfx) : Nat := pfxToNat p * 2 ^ (64 - p.length)

/-- Strict order on prefixes used for map iteration order. -/
def pfxLt (p q : Pfx) : Bool :=
  pfxVal64 p < pfxVal64 q || (pfxVal64 p == pfxVal64 q && p.length < q.length)

/-! ## Basic prefix lemmas -/

theorem isAnc_refl (p : Pfx) : isAnc p p = true := by
  induction p with
  | nil => rfl
  | cons a as_ ih => simp [isAnc, ih]

theorem isAnc_nil (p : Pfx) : isAnc [] p = true := by cases p <;> rfl

theorem lcp_self (p : Pfx) : lcp p p = p := by
  induction p with
  | nil => rfl
  | cons a as_ ih => simp [lcp, ih]

theorem lcp_absorb {t q : Pfx} (h : isAnc t q = true) : lcp t q = t := by
  induction t generalizing q with
  | nil => cases q <;> rfl
  | cons a as_ ih =>
    cases q with
    | nil => simp [isAnc] at h
    | cons b bs =>
      simp only [isAnc, Bool.and_eq_true, beq_iff_eq] at h
      simp [lcp, h.1, ih h.2]

theorem isAnc_lcp {t p q : Pfx} (hp : isAnc t p = true) (hq : isAnc t q = true) :
    isAnc t (lcp p q) = true := by
  induction t generalizing p q with
  | nil => exact isAnc_nil _
  | cons a as_ ih =>
    cases p with
    | nil => simp [isAnc] at hp
    | cons x xs =>
      cases q with
      | nil => simp [isAnc] at hq
      | cons y ys =>
        simp only [isAnc, Bool.and_eq_true, beq_iff_eq] at hp hq
        have hxy : x = y := by rw [← hp.1, ← hq.1]
        simp [lcp, hxy, isAnc, ih hp.2 hq.2, hq.1]

theorem lcp_cross {t p q : Pfx} {b : Bool}
    (hp : isAnc (t ++ [b]) p = true) (hq : isAnc (t ++ [!b]) q = true) :
    lcp p q = t := by
  induction t generalizing p q with
  | nil =>
    cases p with
    | nil => simp [isAnc] at hp
    | cons x xs =>
      cases q with
      | nil => simp [isAnc] at hq
      | cons y ys =>
        simp only [List.nil_append, isAnc, Bool.and_eq_true, beq_iff_eq] at hp hq
        have : x ≠ y := by
          rw [← hp.1, ← hq.1]; cases b <;> simp
        simp [lcp, this]
  | cons a as_ ih =>
    cases p with
    | nil => simp [isAnc] at hp
    | cons x xs =>
      cases q with
      | nil => simp [isAnc] at hq
      | cons y ys =>
        simp only [List.cons_append, isAnc, Bool.and_eq_true, beq_iff_eq] at hp hq
        have hx : a = x := hp.1
        have hy : a = y := hq.1
        have hxy : x = y := by rw [← hx, ← hy]
        simp [lcp, hxy, ← hx, ← hy, ih hp.2 hq.2]

theorem isAnc_side {t p : Pfx} (h : isAnc t p = true) (hne : p ≠ t) :
    isAnc (t ++ [false]) p = true ∨ isAnc (t ++ [true]) p = true := by
  induction t generalizing p with
  | nil =>
    cases p with
    | nil => exact absurd rfl hne
    | cons x xs =>
      cases x
      · left; simp [isAnc, isAnc_nil]
      · right; simp [isAnc, isAnc_nil]
  | cons a as_ ih =>
    cases p with
    | nil => simp [isAnc] at h
    | cons x xs =>
      simp only [isAnc, Bool.and_eq_true, beq_iff_eq] at h
      have hne' : xs ≠ as_ := by
        intro hx; exact hne (by rw [hx, h.1])
      rcases ih h.2 hne' with h' | h'
      · left; simp [List.cons_append, isAnc, h.1, h']
      · right; simp [List.cons_append, isAnc, h.1, h']

theorem isAnc_not_both {t p : Pfx}
    (h0 : isAnc (t ++ [false]) p = true) (h1 : isAnc (t ++ [true]) p = true) : False := by
  induction t generalizing p with
  | nil =>
    cases p with
    | nil => simp [isAnc] at h0
    | cons x xs =>
      simp only [List.nil_append, isAnc, Bool.and_eq_true, beq_iff_eq] at h0 h1
      rw [← h0.1] at h1
      exact absurd h1.1 (by simp)
  | cons a as_ ih =>
    cases p with
    | nil => simp [isAnc] at h0
    | cons x xs =>
      simp only [List.cons_append, isAnc, Bool.and_eq_true, beq_iff_eq] at h0 h1
      exact ih h0.2 h1.2

theorem isAnc_append_right {t p : Pfx} {b : Bool} (h : isAnc (t ++ [b]) p = true) :
    isAnc t p = true := by
  induction t generalizing p with
  | nil => exact isAnc_nil _
  | cons a as_ ih =>
    cases p with
    | nil => simp [isAnc] at h
    | cons x xs =>
      simp only [List.cons_append, isAnc, Bool.and_eq_true, beq_iff_eq] at h
      simp [isAnc, h.1, ih h.2]

theorem isAnc_extend_absurd {p : Pfx} {b : Bool} (h : isAnc (p ++ [b]) p = true) : False := by
  induction p with
  | nil => simp [isAnc] at h
  | cons a as_ ih =>
    simp only [List.cons_append, isAnc, Bool.and_eq_true, beq_iff_eq] at h
    exact ih h.2

theorem isAnc_extend_ne {t p : Pfx} {b : Bool} (h : isAnc (t ++ [b]) p = true) : p ≠ t := by
  intro he
  subst he
  exact isAnc_extend_absurd h

theorem isAnc_dropLast (p : Pfx) : isAnc p.dropLast p = true := by
  induction p with
  | nil => rfl
  | cons a as_ ih =>
    cases as_ with
    | nil => rfl
    | cons b bs => simp [List.dropLast, isAnc, ih]

/-! ## A stable insertion sort used wherever the source sorts lists -/

/-- Insert an element into a list so that it comes before the first element it
compares `le` to; used by `sortBy`. -/
def insertLe {α : Type} (le : α → α → Bool) (a : α) : List α → List α
  | [] => [a]
  | b :: bs => if le a b then a :: b :: bs else b :: insertLe le a bs

/-- Stable insertion sort, matching Rust's stable `sort_by_key`. -/
def sortBy {α : Type} (le : α → α → Bool) : List α → List α
  | [] => []
  | a :: as_ => insertLe le a (sortBy le as_)

theorem insertLe_perm {α : Type} (le : α → α → Bool) (a : α) (l : List α) :
    List.Perm (insertLe le a l) (a :: l) := by
  induction l with
  | nil => exact List.Perm.refl _
  | cons b bs ih =>
    simp only [insertLe]
    by_cases h : le a b = true
    · simp [h]
    · simp only [h]
      exact ((ih.cons b).trans (List.Perm.swap a b bs)).symm.symm

theorem sortBy_perm {α : Type} (le : α → α → Bool) (l : List α) :
    List.Perm (sortBy le l) l := by
  induction l with
  | nil => exact List.Perm.refl _
  | cons a as_ ih =>
    exact (insertLe_perm le a (sortBy le as_)).trans (ih.cons a)

theorem sortBy_length {α : Type} (le : α → α → Bool) (l : List α) :
    (sortBy le l).length = l.length :=
  (sortBy_perm le l).length_eq

theorem sortBy_mem {α : Type} {le : α → α → Bool} {l : List α} {x : α} :
    x ∈ sortBy le l ↔ x ∈ l :=
  (sortBy_perm le l).mem_iff

/-- Pairwise-below-the-rest characterisation of sortedness used for the
minimum-head property of `sortBy`. -/
def sortedLe {α : Type} (le : α → α → Bool) : List α → Prop
  | [] => True
  | a :: as_ => (∀ x ∈ as_, le a x = true) ∧ sortedLe le as_

theorem insertLe_sorted {α : Type} {le : α → α → Bool}
    (htot : ∀ x y, le x y = false → le y x = true)
    (htrans : ∀ x y z, le x y = true → le y z = true → le x z = true)
    (a : α) {l : List α} (hl : sortedLe le l) : sortedLe le (insertLe le a l) := by
  induction l with
  | nil => exact ⟨by simp, trivial⟩
  | cons b bs ih =>
    simp only [insertLe]
    by_cases h : le a b = true
    · simp only [h, if_true]
      refine ⟨?_, hl⟩
      intro x hx
      rcases List.mem_cons.mp hx with hxb | hx'
      · rw [hxb]; exact h
      · exact htrans a b x h (hl.1 x hx')
    · simp only [h, if_false]
      refine ⟨?_, ih hl.2⟩
      intro x hx
      have hmem := (insertLe_perm le a bs).mem_iff.mp hx
      rcases List.mem_cons.mp hmem with hxa | hxbs
      · rw [hxa]
        exact htot a b (by simpa using h)
      · exact hl.1 x hxbs

theorem sortBy_sorted {α : Type} {le : α → α → Bool}
    (htot : ∀ x y, le x y = false → le y x = true)
    (htrans : ∀ x y z, le x y = true → le y z = true → le x z = true)
    (l : List α) : sortedLe le (sortBy le l) := by
  induction l with
  | nil => trivial
  | cons a as_ ih => exact insertLe_sorted htot htrans a ih

theorem sortBy_head_min {α : Type} {le : α → α → Bool}
    (htot : ∀ x y, le x y = false → le y x = true)
    (htrans : ∀ x y z, le x y = true → le y z = true → le x z = true)
    {l : List α} {a : α} {rest : List α} (h : sortBy le l = a :: rest) :
    ∀ x ∈ l, le a x = true := by
  intro x hx
  have hsorted := sortBy_sorted htot htrans l
  rw [h] at hsorted
  have hmem : x ∈ a :: rest := by
    rw [← h]; exact sortBy_mem.mpr hx
  rcases List.mem_cons.mp hmem with hxa | hmem'
  · rw [hxa]
    cases hle : le a a
    · have h2 := htot a a hle
      simp [h2] at hle
    · rfl
  · exact hsorted.1 x hmem'

/-! ## Nodes, parameters and events -/

/-- Modelled from the spec: `node.rs` is not in src/.  §3: a node has a 64-bit
name and an age (a `u8`; modelled as a natural number, saturating at 255 where
the source saturates).  The `is_adult` flag is derivable as `age ≥ 4` and is not
carried separately. -/
structure Node where
  name : Nat
  age : Nat
deriving DecidableEq, Repr

/-- Modelled from the spec: `node.rs` is not in src/.  §4.2 relocation:
the new name keeps the target prefix's bits on top and takes the random draw's
low bits below them; the age increases by one, saturating at 255. -/
def nodeRelocate (n : Node) (target : Pfx) (r : Nat) : Node :=
  { name := pfxToNat target * 2 ^ (64 - target.length) + r % 2 ^ (64 - target.length),
    age := min (n.age + 1) 255 }

/-- The `drop_dist` parameter of the simulation (`exp` or `rev`). -/
inductive DropDist | exp | rev
deriving DecidableEq, Repr

/-- The `split_strategy` parameter of the simulation. -/
inductive SplitStrat | always | complete
deriving DecidableEq, Repr

/-- Modelled from the spec: `params.rs` is not in src/.  §6 lists the
configuration options; only the fields the churn engine reads are carried. -/
structure Params where
  initAge : Nat
  maxYoung : Nat
  splitStrategy : SplitStrat
  dropDist : DropDist
  incAge : Bool
deriving DecidableEq, Repr

/-- `NetworkEvent` from `src/network/churn.rs`: events the network sends to a
section.  The boolean on `Live` tells whether the event counts for ageing. -/
inductive NetworkEvent
  | Live (node : Node) (counts : Bool)
  | Lost (name : Nat)
  | Gone (node : Node)
  | Relocated (node : Node)
  | PrefixChange (pfx : Pfx)
  | StartMerge (pfx : Pfx)
deriving DecidableEq, Repr

/-- `SectionEvent` from `src/network/churn.rs`: responses a section reports
back to the network. -/
inductive SectionEvent
  | NodeDropped (node : Node)
  | NodeRejected (node : Node)
  | NeedRelocate (node : Node)
  | RequestMerge
  | RequestSplit
deriving DecidableEq, Repr

/-! ## Sections (modelled from the spec, `section.rs` is not in src/) -/

/-- The group size `E` (§3: "the `E = 8` nodes of highest age"). -/
def groupSize : Nat := 8

/-- The adult age threshold (§3: a node is "young" when its age is below 4). -/
def adultAge : Nat := 4

/-- Modelled from the spec: `section.rs` is not in src/.  §4.3: a section holds
its prefix, its members, its ageing counter and a "merging" flag. -/
structure Section where
  pfx : Pfx
  members : List Node
  counter : Nat
  merging : Bool
deriving DecidableEq, Repr

/-- Order putting higher ages first with ties broken by smaller name: the
elder order of §3 ("the `E = 8` nodes of highest age, tie-broken by Name"). -/
def elderLe (a b : Node) : Bool :=
  b.age < a.age || (a.age == b.age && a.name ≤ b.name)

/-- Modelled from the spec: §3 membership split — the elders are the `E`
nodes of highest age, ties broken by name. -/
def elders (s : Section) : List Node :=
  (sortBy elderLe s.members).take groupSize

/-- Number of young elders (age below the adult threshold). -/
def youngElders (s : Section) : Nat :=
  ((elders s).filter (fun n => n.age < adultAge)).length

/-- Modelled from the spec: §4.3 completeness —
`is_complete ≡ |elders| ≥ E ∧ every elder has age ≥ 4`. -/
def isComplete (s : Section) : Bool :=
  groupSize ≤ (elders s).length && (elders s).all (fun n => adultAge ≤ n.age)

/-- Members sorted by age ascending, as used by the drop scan (§4.6
"iterate sections and their members sorted by age ascending"). -/
def sortByAge (s : Section) : List Node :=
  sortBy (fun a b => a.age ≤ b.age) s.members

/-- Number of trailing zero bits of a natural number (0 for 0). -/
def trailZeros (n : Nat) : Nat :=
  if h : n = 0 then 0
  else if n % 2 = 1 then 0 else trailZeros (n / 2) + 1
decreasing_by exact Nat.div_lt_self (Nat.pos_of_ne_zero h) one_lt_two

/-- Whether the ageing counter just crossed a power of two
(§3: `counter & (counter−1) == 0` after the increment). -/
def isPow2 (n : Nat) : Bool := n &&& (n - 1) == 0

/-- The bit of `name` at position `i` from the top of the 64-bit word:
used to partition a section's members between the two child prefixes. -/
def nameBit (name : Nat) (i : Nat) : Bool := name / 2 ^ (63 - i) % 2 == 1

/-- Modelled from the spec: §4.3 relocation trigger — when the counter crosses
a power of two, the candidate is the member whose age equals
`trailing_zeros(counter) + 1`, tie-broken by smallest name; it is relocated
only if it is not an elder. -/
def relocCandidate (s : Section) : Option Node :=
  match (sortBy (fun a b : Node => a.name ≤ b.name)
      (s.members.filter (fun n => n.age == trailZeros s.counter + 1))).head? with
  | none => none
  | some n => if n ∈ elders s then none else some n

/-- Modelled from the spec: §4.3/§6 split readiness.  The members are split
by the bit at the section's prefix length; with the `always` strategy the
section splits as soon as both halves have at least `E` members, with the
`complete` strategy only when both resulting children would be complete.
(The spec leaves the exact `complete` threshold open — design note (a); the
"children both complete" reading of §6 is adopted.) -/
def splitReady (s : Section) (params : Params) : Bool :=
  let c0 := s.members.filter (fun n => nameBit n.name s.pfx.length == false)
  let c1 := s.members.filter (fun n => nameBit n.name s.pfx.length == true)
  match params.splitStrategy with
  | SplitStrat.always => groupSize ≤ c0.length && groupSize ≤ c1.length
  | SplitStrat.complete =>
      isComplete ⟨pfxExtend s.pfx false, c0, 0, false⟩ &&
      isComplete ⟨pfxExtend s.pfx true, c1, 0, false⟩

/-- Modelled from the spec: §4.3 `handle_event` — the per-section state
machine.  Returns the updated section and the section events reported back to
the network.  `Live` may be rejected while merging or by the young-elder cap;
counting events advance the ageing counter and may trigger a relocation; a
`Lost` below `E` members requests a merge (never at the root); `Gone` and
`Relocated` remove silently; `StartMerge` sets and `PrefixChange` clears the
merging flag, the latter adopting the new prefix. -/
def handleEvent (s : Section) (ev : NetworkEvent) (params : Params) :
    Section × List SectionEvent :=
  match ev with
  | NetworkEvent.Live node counts =>
    if s.merging ||
        (decide (0 < params.maxYoung) && decide (node.age < adultAge) &&
         decide (params.maxYoung ≤ youngElders s)) then
      (s, [SectionEvent.NodeRejected node])
    else
      let s1 := { s with members := s.members ++ [node] }
      let s2 := if counts then { s1 with counter := s1.counter + 1 } else s1
      let relocEvs :=
        if counts && isPow2 s2.counter then
          match relocCandidate s2 with
          | some n => [SectionEvent.NeedRelocate n]
          | none => []
        else []
      let splitEvs := if splitReady s2 params then [SectionEvent.RequestSplit] else []
      (s2, relocEvs ++ splitEvs)
  | NetworkEvent.Lost name =>
    let removed := s.members.find? (fun n => n.name == name)
    let s1 := { s with members := s.members.filter (fun n => n.name != name),
                        counter := s.counter + 1 }
    let mergeEvs :=
      if s1.members.length < groupSize && !s1.pfx.isEmpty then
        [SectionEvent.RequestMerge]
      else []
    let dropEvs := match removed with
      | some n => [SectionEvent.NodeDropped n]
      | none => []
    (s1, mergeEvs ++ dropEvs)
  | NetworkEvent.Gone node =>
    ({ s with members := s.members.filter (fun n => n.name != node.name) }, [])
  | NetworkEvent.Relocated node =>
    ({ s with members := s.members.filter (fun n => n.name != node.name) }, [])
  | NetworkEvent.StartMerge _ =>
    ({ s with merging := true }, [])
  | NetworkEvent.PrefixChange p =>
    ({ s with pfx := p, merging := false }, [])

/-- Modelled from the spec: §4.3 split — partition the members by the bit at
the prefix's length into the two child sections; each child's event list
starts with its `PrefixChange`.  (The further `NeedRelocate` entries §4.3
mentions are section-to-network events and cannot inhabit the network event
queue, so only the `PrefixChange` is generated.)  With `age_inc` every
surviving member's age increases by one. -/
def splitSection (s : Section) (params : Params) :
    (Section × List NetworkEvent) × (Section × List NetworkEvent) :=
  let bump : List Node → List Node := fun ms =>
    if params.incAge then ms.map (fun n => { n with age := min (n.age + 1) 255 }) else ms
  let m0 := s.members.filter (fun n => nameBit n.name s.pfx.length == false)
  let m1 := s.members.filter (fun n => nameBit n.name s.pfx.length == true)
  let s0 : Section := ⟨pfxExtend s.pfx false, bump m0, s.counter, false⟩
  let s1 : Section := ⟨pfxExtend s.pfx true, bump m1, s.counter, false⟩
  ((s0, [NetworkEvent.PrefixChange s0.pfx]), (s1, [NetworkEvent.PrefixChange s1.pfx]))

/-- Modelled from the spec: §4.3 merge — one section whose prefix is the
parent of two siblings (generalised to the nearest common ancestor, which is
the parent for siblings), whose membership is the union and whose ageing
counters are summed; with `age_inc` every member's age increases by one. -/
def mergeSec (params : Params) (a b : Section) : Section :=
  let mem := a.members ++ b.members
  let mem := if params.incAge then mem.map (fun n => { n with age := min (n.age + 1) 255 })
             else mem
  ⟨lcp a.pfx b.pfx, mem, a.counter + b.counter, false⟩

/-! ## Sorted association maps standing for the source's `BTreeMap` keyed by
prefixes.  Entries are kept in ascending `pfxLt` order so that iteration
matches the `BTreeMap` iteration order. -/

/-- An association map from prefixes to `α`, ordered like the source's
`BTreeMap<Prefix, _>`. -/
abbrev SMap (α : Type) : Type := List (Pfx × α)

/-- Lookup, mirroring `BTreeMap::get`. -/
def mapFind? {α : Type} : SMap α → Pfx → Option α
  | [], _ => none
  | (k, v) :: rest, q => if k = q then some v else mapFind? rest q

/-- Removal, mirroring `BTreeMap::remove` (all entries with the key are
removed; well-formed maps have at most one). -/
def mapErase {α : Type} : SMap α → Pfx → SMap α
  | [], _ => []
  | (k, v) :: rest, q => if k = q then mapErase rest q else (k, v) :: mapErase rest q

/-- Insertion at the sorted position, mirroring `BTreeMap::insert`
(replacing any previous entry for the key). -/
def mapInsert {α : Type} (m : SMap α) (q : Pfx) (v : α) : SMap α :=
  let rec go : SMap α → SMap α
    | [] => [(q, v)]
    | (k, w) :: rest => if pfxLt q k then (q, v) :: (k, w) :: rest else (k, w) :: go rest
  go (mapErase m q)

/-- The keys of a map, in iteration order. -/
def mapKeys {α : Type} (m : SMap α) : List Pfx := m.map Prod.fst

/-- `BTreeMap::entry(k).or_insert_with(Vec::new).extend(evs)` on event
queues: append to the key's list, creating it when absent. -/
def entryAppend (m : SMap (List NetworkEvent)) (q : Pfx) (evs : List NetworkEvent) :
    SMap (List NetworkEvent) :=
  mapInsert m q (((mapFind? m q).getD []) ++ evs)

theorem mapFind?_erase_self {α : Type} (m : SMap α) (q : Pfx) :
    mapFind? (mapErase m q) q = none := by
  induction m with
  | nil => rfl
  | cons e rest ih =>
    obtain ⟨k, v⟩ := e
    by_cases h : k = q
    · simp [mapErase, h, ih]
    · simp [mapErase, h, mapFind?, ih]

theorem mapFind?_erase_ne {α : Type} (m : SMap α) {q q' : Pfx} (h : q ≠ q') :
    mapFind? (mapErase m q) q' = mapFind? m q' := by
  induction m with
  | nil => rfl
  | cons e rest ih =>
    obtain ⟨k, v⟩ := e
    by_cases hk : k = q
    · subst hk
      have hne : k ≠ q' := h
      simp [mapErase, mapFind?, hne, ih]
    · by_cases hkq : k = q'
      · simp [mapErase, hk, mapFind?, hkq, Ne.symm h]
      · simp [mapErase, hk, mapFind?, hkq, ih]

theorem mapInsert_go_find_self {α : Type} (q : Pfx) (v : α) (m : SMap α)
    (hnone : mapFind? m q = none) : mapFind? (mapInsert.go q v m) q = some v := by
  induction m with
  | nil => simp [mapInsert.go, mapFind?]
  | cons e rest ih =>
    obtain ⟨k, w⟩ := e
    by_cases hk : k = q
    · simp [mapFind?, hk] at hnone
    · simp only [mapFind?, hk, if_false] at hnone
      simp only [mapInsert.go]
      by_cases hlt : pfxLt q k = true
      · simp [hlt, mapFind?]
      · simp [hlt, mapFind?, hk, ih hnone]

theorem mapInsert_go_find_ne {α : Type} (q : Pfx) (v : α) (m : SMap α) {q' : Pfx}
    (h : q ≠ q') : mapFind? (mapInsert.go q v m) q' = mapFind? m q' := by
  induction m with
  | nil => simp [mapInsert.go, mapFind?, h]
  | cons e rest ih =>
    obtain ⟨k, w⟩ := e
    simp only [mapInsert.go]
    by_cases hlt : pfxLt q k = true
    · simp [hlt, mapFind?, h]
    · simp [hlt, mapFind?, ih]

theorem mapFind?_insert_self {α : Type} (m : SMap α) (q : Pfx) (v : α) :
    mapFind? (mapInsert m q v) q = some v :=
  mapInsert_go_find_self q v (mapErase m q) (mapFind?_erase_self m q)

theorem mapFind?_insert_ne {α : Type} (m : SMap α) {q q' : Pfx} (v : α) (h : q ≠ q') :
    mapFind? (mapInsert m q v) q' = mapFind? m q' := by
  rw [mapInsert, mapInsert_go_find_ne q v _ h, mapFind?_erase_ne _ h]

theorem mapFind?_mem {α : Type} {m : SMap α} {q : Pfx} {v : α}
    (h : mapFind? m q = some v) : (q, v) ∈ m := by
  induction m with
  | nil => simp [mapFind?] at h
  | cons e rest ih =>
    obtain ⟨k, w⟩ := e
    by_cases hk : k = q
    · subst hk
      simp only [mapFind?, if_true] at h
      simp only [Option.some.injEq] at h
      subst h
      exact List.mem_cons_self _ _
    · simp only [mapFind?, hk, if_false] at h
      exact List.mem_cons_of_mem _ (ih h)

theorem mapFind?_isSome_of_key {α : Type} {m : SMap α} {q : Pfx}
    (h : q ∈ mapKeys m) : ∃ v, mapFind? m q = some v := by
  induction m with
  | nil => simp [mapKeys] at h
  | cons e rest ih =>
    obtain ⟨k, w⟩ := e
    by_cases hk : k = q
    · exact ⟨w, by simp [mapFind?, hk]⟩
    · have : q ∈ mapKeys rest := by
        simp only [mapKeys, List.map_cons] at h
        rcases List.mem_cons.mp h with h' | h'
        · exact absurd h'.symm hk
        · exact h'
      obtain ⟨v, hv⟩ := ih this
      exact ⟨v, by simp [mapFind?, hk, hv]⟩

/-! ## The network state (`src/network/network.rs`) -/

/-- `PendingMerge` from `network.rs`: a map from each participating original
prefix to a boolean "has completed its `PrefixChange`". -/
structure PendingMerge where
  complete : SMap Bool
deriving DecidableEq, Repr

/-- `PendingMerge::from_prefixes`: all participants start incomplete. -/
def pmFromPfxs (ps : List Pfx) : PendingMerge :=
  ⟨ps.map (fun p => (p, false))⟩

/-- `PendingMerge::completed`: mark a participant's flag (existing entries
only, as `get_mut` does). -/
def pmCompleted (pm : PendingMerge) (p : Pfx) : PendingMerge :=
  ⟨pm.complete.map (fun e => if e.1 = p then (e.1, true) else e)⟩

/-- `PendingMerge::is_done`: every participant has completed. -/
def pmIsDone (pm : PendingMerge) : Bool := pm.complete.all (fun e => e.2)

/-- `NetworkStructure` from `network.rs`: one structural snapshot. -/
structure NetworkStructure where
  size : Nat
  sections : Nat
  complete : Nat
deriving DecidableEq, Repr

/-- `Output` from `network.rs`: the cumulative counters and the snapshot
time-series.  The drop-by-age histogram is an ordered association list like
the source's `BTreeMap<u8, usize>`. -/
structure Output where
  adds : Nat
  drops : Nat
  dropsDist : List (Nat × Nat)
  rejoins : Nat
  relocations : Nat
  rejections : Nat
  churn : Nat
  networkStructure : List NetworkStructure
deriving DecidableEq, Repr

/-- Bump the drop-by-age histogram at an age
(`*self.output.drops_dist.entry(age).or_insert(0) += 1`). -/
def bumpDist : List (Nat × Nat) → Nat → List (Nat × Nat)
  | [], a => [(a, 1)]
  | (k, v) :: rest, a =>
    if k = a then (k, v + 1) :: rest
    else if a < k then (a, 1) :: (k, v) :: rest
    else (k, v) :: bumpDist rest a

/-- `Network` from `network.rs`.  The `nodes` field is the section map (the
source's name for it), `rng` is the modelled stream of pseudo-random draws
(`random.rs` is not in src/): each call of the source's `random()` pops the
head of the stream. -/
structure Network where
  nodes : SMap Section
  leftNodes : List Node
  eventQueue : SMap (List NetworkEvent)
  pendingMerges : SMap PendingMerge
  params : Params
  output : Output
  rng : List Nat
deriving DecidableEq, Repr

/-- `Network::new`: a single section at the root prefix. -/
def networkNew (params : Params) (rng : List Nat) : Network :=
  { nodes := [([], ⟨[], [], 0, false⟩)],
    leftNodes := [], eventQueue := [], pendingMerges := [],
    params, output := ⟨0, 0, [], 0, 0, 0, 0, []⟩, rng }

/-- `Network::has_events`: some queue is non-empty. -/
def hasEvents (net : Network) : Bool :=
  net.eventQueue.any (fun e => !e.2.isEmpty)

/-- `Network::capture_network_structure`. -/
def networkSize (net : Network) : Nat :=
  (net.nodes.map (fun e => e.2.members.length)).sum

/-- Number of sections (`self.nodes.len()`). -/
def numSections (net : Network) : Nat := net.nodes.length

/-- Number of complete sections. -/
def numComplete (net : Network) : Nat :=
  (net.nodes.filter (fun e => isComplete e.2)).length

/-- `Network::capture_network_structure`: append one snapshot record. -/
def captureStructure (net : Network) : Network :=
  { net with output := { net.output with
      networkStructure := net.output.networkStructure ++
        [⟨networkSize net, numSections net, numComplete net⟩] } }

/-! ## `Network::merged_section` and merging -/

/-- One round of the source's combination loop inside `merged_section`:
sort by prefix (descending here, so the two highest-sorting sections are in
front, as the source pops the two last after an ascending sort), combine the
two highest with `Section::merge`, repeat.  Structured with the list length
as fuel. -/
def combineLoop (params : Params) : Nat → List Section → Option Section
  | _, [] => none
  | _, [s] => some s
  | 0, _ => none
  | fuel + 1, ss =>
    match sortBy (fun a b : Section => !pfxLt a.pfx b.pfx) ss with
    | a :: b :: rest => combineLoop params fuel (mergeSec params a b :: rest)
    | _ => none

/-- The pure combination performed by `Network::merged_section` on the list
of gathered sections. -/
def combineSections (params : Params) (ss : List Section) : Option Section :=
  combineLoop params ss.length ss

/-- `Network::calculate_merge_events`: the merge preamble for section `q`
joining `merged` — `StartMerge`, `Gone` for each elder lost, `Live` (not
counting) for each elder gained, then `PrefixChange`.  Elder set differences
are written as list differences over the elder lists. -/
def calcMergeEvents (nodes : SMap Section) (merged : Section) (q : Pfx) :
    List NetworkEvent :=
  let oldE := (mapFind? nodes q).elim [] elders
  let newE := elders merged
  [NetworkEvent.StartMerge merged.pfx] ++
    (oldE.filter (fun e => e ∉ newE)).map NetworkEvent.Gone ++
    (newE.filter (fun e => e ∉ oldE)).map (fun e => NetworkEvent.Live e false) ++
    [NetworkEvent.PrefixChange merged.pfx]

/-- The installation phase of `Network::merge`: gather the section keys below
the target, install the pending merge, and give every participant its merge
preamble queue (the queue is replaced, as `event_queue.insert` does). -/
def mergeInstall (net : Network) (target : Pfx) : Network :=
  let ps := (mapKeys net.nodes).filter (fun q => isAnc target q)
  let net1 := { net with pendingMerges := mapInsert net.pendingMerges target (pmFromPfxs ps) }
  let gathered := ps.filterMap (fun q => mapFind? net.nodes q)
  match combineSections net.params gathered with
  | none => net1
  | some merged =>
    ps.foldl
      (fun n q => { n with eventQueue := mapInsert n.eventQueue q (calcMergeEvents n.nodes merged q) })
      net1

/-- `Network::merge`: compute the target prefix, apply the compatible-merge
policy (ignore when the existing target subsumes the new one, cancel the
existing one otherwise), then install the new pending merge. -/
def mergeSections (net : Network) (p : Pfx) : Network :=
  let target := pfxShorten p
  match (mapKeys net.pendingMerges).find? (fun c => isCompat c target) with
  | some c =>
    if isAnc c target then net
    else mergeInstall { net with pendingMerges := mapErase net.pendingMerges c } target
  | none => mergeInstall net target

/-! ## Churn operations of `network.rs` -/

/-- The first section key matching a name, mirroring
`Network::prefix_for_node` (`BTreeMap` keys are iterated in order; the keys
partition the space, so the first match is the owner). -/
def pfxForName (net : Network) (name : Nat) : Option Pfx :=
  (mapKeys net.nodes).find? (fun q => pfxMatches q name)

/-- The sort key of `Network::relocate`'s neighbour sort:
`prefix.len() * 10000 + section.len()`. -/
def relocCost (net : Network) (q : Pfx) : Nat :=
  q.length * 10000 + (mapFind? net.nodes q).elim 0 (fun s => s.members.length)

/-- The relocation target chosen by `Network::relocate`: the neighbours of
the source section sorted by `relocCost` ascending (a stable sort, as Rust's
`sort_by_key`), the first taken; the source section itself when it has no
neighbour. -/
def relocTarget (net : Network) (src : Pfx) : Pfx :=
  (sortBy (fun a b => decide (relocCost net a ≤ relocCost net b))
    ((mapKeys net.nodes).filter (fun q => isNbr q src))).headD src

/-- `Network::relocate`: bump the relocation and churn counters, pick the
neighbour of the node's section with the least `relocCost` (the section
itself when it has no neighbour), rewrite the node's name into the target
(consuming one random draw), increment its age and enqueue a counting `Live`
for the target.  The source unwraps the owning section; when no section
matches, only the counters are updated here (the source would fail). -/
def relocateNode (net : Network) (node : Node) : Network :=
  let out := { net.output with relocations := net.output.relocations + 1,
                               churn := net.output.churn + 2 }
  match (mapKeys net.nodes).find? (fun q => pfxMatches q node.name) with
  | none => { net with output := out }
  | some src =>
    let target := relocTarget net src
    let node2 := nodeRelocate node target (net.rng.headD 0)
    { net with
      output := out,
      rng := net.rng.tail,
      eventQueue := entryAppend net.eventQueue target [NetworkEvent.Live node2 true] }

/-- The flattened candidate list of `Network::drop_random_node`: all sections
in map order, each section's members sorted by age ascending. -/
def dropCandidates (net : Network) : List (Pfx × Node) :=
  net.nodes.flatMap (fun e => (sortByAge e.2).map (fun n => (e.1, n)))

/-- The scan of `Network::drop_random_node`: one random draw per examined
candidate, stopping at the first accepted one.  The source's acceptance test
is `drop % (2.0f64.powf(age as f64) as usize) == 0`; the float power and cast
are exact for every age below 64, so the modulus is `2 ^ age`. -/
def dropScan : List (Pfx × Node) → List Nat → Option (Pfx × Node) × List Nat
  | [], rng => (none, rng)
  | c :: rest, rng =>
    if rng.headD 0 % 2 ^ c.2.age == 0 then (some c, rng.tail)
    else dropScan rest rng.tail

/-- `Network::drop_random_node`: scan the age-sorted candidates; the first
accepted node has `Lost(name)` enqueued to its section, the drop and churn
counters are bumped and the drop-by-age histogram gains one at its age. -/
def dropRandomNode (net : Network) : Network :=
  match dropScan (dropCandidates net) net.rng with
  | (none, r) => { net with rng := r }
  | (some (p, n), r) =>
    { net with
      rng := r,
      output := { net.output with
                  drops := net.output.drops + 1,
                  churn := net.output.churn + 1,
                  dropsDist := bumpDist net.output.dropsDist n.age },
      eventQueue := entryAppend net.eventQueue p [NetworkEvent.Lost n.name] }

/-- `Network::add_random_node`: bump the add and churn counters, create a
node with a random name, and enqueue a counting `Live` to its owner. -/
def addRandomNode (net : Network) : Network :=
  let out := { net.output with adds := net.output.adds + 1,
                               churn := net.output.churn + 1 }
  let node : Node := ⟨net.rng.headD 0 % 2 ^ 64, net.params.initAge⟩
  let net1 := { net with output := out, rng := net.rng.tail }
  match pfxForName net1 node.name with
  | none => net1
  | some p =>
    { net1 with eventQueue := entryAppend net1.eventQueue p [NetworkEvent.Live node true] }

/-- Modelled from the spec: `random.rs` is not in src/.  A Fisher–Yates style
shuffle drawing one random index per remaining element; shuffling the empty
list draws nothing. -/
def shuffleGo : Nat → List Node → List Nat → List Node × List Nat
  | 0, xs, r => (xs, r)
  | fuel + 1, xs, r =>
    match xs with
    | [] => ([], r)
    | _ :: _ =>
      let i := r.headD 0 % xs.length
      let rest := xs.take i ++ xs.drop (i + 1)
      let tr := shuffleGo fuel rest r.tail
      (xs.getD i ⟨0, 0⟩ :: tr.1, tr.2)

/-- Shuffle of the `left_nodes` vector. -/
def shuffleList (xs : List Node) (r : List Nat) : List Node × List Nat :=
  shuffleGo xs.length xs r

/-- `Network::rejoin_random_node`: bump the rejoin and churn counters first,
shuffle the departed nodes and pop the last; if one exists its age resets to
the configured initial age (the spec's simple `rejoined` rule, `node.rs` is
not in src/) and a counting `Live` is enqueued to the section matching its
unchanged name. -/
def rejoinRandomNode (net : Network) : Network :=
  let out := { net.output with rejoins := net.output.rejoins + 1,
                               churn := net.output.churn + 1 }
  let sh := shuffleList net.leftNodes net.rng
  match sh.1.getLast? with
  | none => { net with output := out, leftNodes := sh.1, rng := sh.2 }
  | some node0 =>
    let node := { node0 with age := net.params.initAge }
    let net1 := { net with output := out, leftNodes := sh.1.dropLast, rng := sh.2 }
    match pfxForName net1 node.name with
    | none => net1
    | some p =>
      { net1 with eventQueue := entryAppend net1.eventQueue p [NetworkEvent.Live node true] }

/-- `Network::process_single_event`: dispatch one section response.
A `RequestSplit` removes the section, discards its queued events, splits it,
reinserts both children and appends each child's generated events to that
child's queue, counting one churn event. -/
def processSingleEvent (net : Network) (p : Pfx) (se : SectionEvent) : Network :=
  match se with
  | SectionEvent.NodeDropped n => { net with leftNodes := net.leftNodes ++ [n] }
  | SectionEvent.NeedRelocate n => relocateNode net n
  | SectionEvent.NodeRejected _ =>
    { net with output := { net.output with rejections := net.output.rejections + 1 } }
  | SectionEvent.RequestMerge => mergeSections net p
  | SectionEvent.RequestSplit =>
    match mapFind? net.nodes p with
    | none => net
    | some sec =>
      let r := splitSection sec net.params
      let q1 := mapErase net.eventQueue p
      let q2 := entryAppend q1 r.1.1.pfx r.1.2
      let q3 := entryAppend q2 r.2.1.pfx r.2.2
      let nodes1 := mapInsert (mapInsert (mapErase net.nodes p) r.1.1.pfx r.1.1) r.2.1.pfx r.2.1
      { net with
        nodes := nodes1,
        eventQueue := q3,
        output := { net.output with churn := net.output.churn + 1 } }

/-- Delivery of one event to the section owning `p`: the section handles the
event in place when it exists (`get_mut` in the source), and its responses
are collected. -/
def deliverToSection (p : Pfx) (net0 : Network) (ev : NetworkEvent) :
    Network × List SectionEvent :=
  match mapFind? net0.nodes p with
  | some sec =>
    let hr := handleEvent sec ev net0.params
    ({ net0 with nodes := mapInsert net0.nodes p hr.1 }, hr.2)
  | none => (net0, ([] : List SectionEvent))

/-- A delivered `PrefixChange` whose target is a pending-merge target marks
this participant complete. -/
def notePrefixChange (p : Pfx) (net1 : Network) (ev : NetworkEvent) : Network :=
  match ev with
  | NetworkEvent.PrefixChange t =>
    match mapFind? net1.pendingMerges t with
    | some pm =>
      { net1 with pendingMerges := mapInsert net1.pendingMerges t (pmCompleted pm p) }
    | none => net1
  | _ => net1

/-- One event-delivery step of the drain loop. -/
def deliverStep (p : Pfx) (acc : Network × List SectionEvent) (ev : NetworkEvent) :
    Network × List SectionEvent :=
  let res := deliverToSection p acc.1 ev
  (notePrefixChange p res.1 ev, acc.2 ++ res.2)

/-- One queue entry of a drain pass: deliver every event of the prefix to its
section, collecting the section responses, then process the responses. -/
def handleQueueEntry (net : Network) (entry : Pfx × List NetworkEvent) : Network :=
  let r := entry.2.foldl (deliverStep entry.1) (net, [])
  r.2.foldl (fun n se => processSingleEvent n entry.1 se) r.1

/-- One iteration of the drain loop of `Network::process_events`: swap the
queue map out for an empty one and handle every entry in order. -/
def drainPass (net : Network) : Network :=
  net.eventQueue.foldl handleQueueEntry { net with eventQueue := [] }

/-- The drain loop of `Network::process_events`, with explicit fuel standing
for the unbounded `while` of the source; `none` means the fuel ran out before
the queues drained. -/
def drainLoop : Nat → Network → Option Network
  | 0, net => if hasEvents net then none else some net
  | fuel + 1, net => if hasEvents net then drainLoop fuel (drainPass net) else some net

/-- Finalising one ready merge: one churn event, the pending entry removed,
the participant sections and their event queues removed and the combined
section inserted under its prefix
(`merged_section(pending_merge.keys(), true)`). -/
def finaliseOne (net : Network) (t : Pfx) : Network :=
  match mapFind? net.pendingMerges t with
  | none => net
  | some pm =>
    let ps := mapKeys pm.complete
    let gathered := ps.filterMap (fun q => mapFind? net.nodes q)
    let nodes1 := ps.foldl mapErase net.nodes
    let queue1 := ps.foldl mapErase net.eventQueue
    let base := { net with
      output := { net.output with churn := net.output.churn + 1 },
      pendingMerges := mapErase net.pendingMerges t,
      nodes := nodes1, eventQueue := queue1 }
    match combineSections net.params gathered with
    | none => base
    | some merged => { base with nodes := mapInsert nodes1 merged.pfx merged }

/-- The merge-finalisation phase of `Network::process_events`: collect the
pending merges whose flags are all set, then finalise each. -/
def finaliseMerges (net : Network) : Network :=
  ((net.pendingMerges.filter (fun e => pmIsDone e.2)).map Prod.fst).foldl finaliseOne net

/-- `Network::process_events`: drain until no queue holds an event, finalise
the ready merges, and capture one structural snapshot. -/
def processEvents (fuel : Nat) (net : Network) : Option Network :=
  (drainLoop fuel net).map (fun m => captureStructure (finaliseMerges m))

/-- One output line of `main.rs`'s `output_structure_file`:
`"{} {} {} {}\n"` applied to the step index and the record. -/
def structLine (i : Nat) (d : NetworkStructure) : String :=
  toString i ++ " " ++ toString d.size ++ " " ++ toString d.sections ++ " " ++
    toString d.complete ++ "\n"

/-- The lines written by `output_structure_file`, in order: the source
enumerates the records and writes one line each. -/
def fileLinesFrom : Nat → List NetworkStructure → List String
  | _, [] => []
  | i, d :: rest => structLine i d :: fileLinesFrom (i + 1) rest

/-- `output_structure_file` from `main.rs`, as the list of written lines. -/
def outputStructureFile (data : List NetworkStructure) : List String :=
  fileLinesFrom 0 data

/-- `random_event` from `main.rs`: one churn event per driver step, chosen by
a draw in `[0, 100)`. -/
def randomEvent (net : Network) (pAdd pDrop : Nat) : Network :=
  let x := net.rng.headD 0 % 100
  let net1 := { net with rng := net.rng.tail }
  if x < pAdd then addRandomNode net1
  else if x < pAdd + pDrop then dropRandomNode net1
  else rejoinRandomNode net1

/-! ## Generic helper lemmas -/

theorem foldl_preserve {α β : Type} (f : β → α → β) (P : β → Prop) (l : List α)
    (b : β) (hb : P b) (hf : ∀ x a, P x → P (f x a)) : P (l.foldl f b) := by
  induction l generalizing b with
  | nil => exact hb
  | cons a rest ih => exact ih (f b a) (hf b a hb)

theorem append_singleton_ne {α : Type} (l : List α) (x : α) : l ++ [x] ≠ l := by
  intro h
  have := congrArg List.length h
  simp at this

theorem mapErase_mem {α : Type} {m : SMap α} {q : Pfx} {e : Pfx × α}
    (h : e ∈ mapErase m q) : e ∈ m := by
  induction m with
  | nil => simp [mapErase] at h
  | cons f rest ih =>
    obtain ⟨k, v⟩ := f
    by_cases hk : k = q
    · simp only [mapErase, hk, if_true] at h
      exact List.mem_cons_of_mem _ (ih h)
    · simp only [mapErase, hk, if_false] at h
      rcases List.mem_cons.mp h with h' | h'
      · exact h' ▸ List.mem_cons_self _ _
      · exact List.mem_cons_of_mem _ (ih h')

theorem headD_drop (rng : List Nat) (i : Nat) : (rng.drop i).headD 0 = rng.getD i 0 := by
  induction i generalizing rng with
  | zero => cases rng <;> rfl
  | succ i ih =>
    cases rng with
    | nil => simp [List.drop, List.getD]
    | cons a rest => simp [ih rest]

/-! ## Claim C10: rejoin with no departed nodes -/

/-- Claim C10: when `left_nodes` is empty, `rejoin_random_node` increments the
rejoin and churn counters by one each and changes nothing else — no event is
enqueued and every other component of the state is untouched. -/
theorem rejoin_empty_frame (net : Network) (h : net.leftNodes = []) :
    rejoinRandomNode net =
      { net with output := { net.output with
                             rejoins := net.output.rejoins + 1,
                             churn := net.output.churn + 1 } } := by
  simp [rejoinRandomNode, shuffleList, h, shuffleGo]

/-- A tiny concrete network used by the witnesses. -/
def witParams : Params := ⟨4, 1, SplitStrat.complete, DropDist.exp, false⟩

/-- A concrete network with two sibling sections and no departed nodes. -/
def witNet : Network :=
  { nodes := [([false], ⟨[false], [⟨1, 10⟩], 3, false⟩),
              ([true], ⟨[true], [⟨2 ^ 63 + 5, 9⟩], 4, false⟩)],
    leftNodes := [], eventQueue := [], pendingMerges := [],
    params := witParams,
    output := ⟨0, 0, [], 0, 0, 0, 0, []⟩, rng := [3, 7] }

/-- Witness for C10 at the concrete network. -/
theorem rejoin_empty_frame_witness :
    rejoinRandomNode witNet =
      { witNet with output := { witNet.output with
                                rejoins := witNet.output.rejoins + 1,
                                churn := witNet.output.churn + 1 } } :=
  rejoin_empty_frame witNet rfl

/-! ## Claim C9: a split discards the parent's queued events -/

/-- Claim C9: processing a `RequestSplit` from `p` removes and discards any
events queued for `p`, and each child's queue receives exactly the events the
split generated, appended after whatever was already queued for the child. -/
theorem split_queue_transfer (net : Network) (p : Pfx) (sec : Section)
    (hfind : mapFind? net.nodes p = some sec) (hkey : sec.pfx = p) :
    mapFind? (processSingleEvent net p SectionEvent.RequestSplit).eventQueue p = none ∧
    mapFind? (processSingleEvent net p SectionEvent.RequestSplit).eventQueue
        (splitSection sec net.params).1.1.pfx =
      some ((mapFind? net.eventQueue (splitSection sec net.params).1.1.pfx).getD [] ++
        (splitSection sec net.params).1.2) ∧
    mapFind? (processSingleEvent net p SectionEvent.RequestSplit).eventQueue
        (splitSection sec net.params).2.1.pfx =
      some ((mapFind? net.eventQueue (splitSection sec net.params).2.1.pfx).getD [] ++
        (splitSection sec net.params).2.2) := by
  have hp0 : (splitSection sec net.params).1.1.pfx = p ++ [false] := by
    simp [splitSection, pfxExtend, hkey]
  have hp1 : (splitSection sec net.params).2.1.pfx = p ++ [true] := by
    simp [splitSection, pfxExtend, hkey]
  have h0p : (splitSection sec net.params).1.1.pfx ≠ p := by
    rw [hp0]; exact append_singleton_ne p false
  have h1p : (splitSection sec net.params).2.1.pfx ≠ p := by
    rw [hp1]; exact append_singleton_ne p true
  have h01 : (splitSection sec net.params).1.1.pfx ≠ (splitSection sec net.params).2.1.pfx := by
    rw [hp0, hp1]
    intro h
    have := List.append_inj_right h rfl
    simp at this
  simp only [processSingleEvent, hfind]
  refine ⟨?_, ?_, ?_⟩
  · rw [entryAppend, mapFind?_insert_ne _ _ h1p, entryAppend,
      mapFind?_insert_ne _ _ h0p, mapFind?_erase_self]
  · rw [entryAppend, mapFind?_insert_ne _ _ (Ne.symm h01), entryAppend,
      mapFind?_insert_self, mapFind?_erase_ne _ (Ne.symm h0p)]
  · rw [entryAppend, mapFind?_insert_self, entryAppend,
      mapFind?_insert_ne _ _ h01, mapFind?_erase_ne _ (Ne.symm h1p)]

/-- The root section of the C9 witness network. -/
def witSplitSec : Section := ⟨[], [⟨1, 5⟩, ⟨2 ^ 63, 6⟩], 0, false⟩

/-- A one-section network with events already queued for the root and for one
child, used by the C9 witness. -/
def witSplitNet : Network :=
  { nodes := [([], witSplitSec)],
    leftNodes := [],
    eventQueue := [([], [NetworkEvent.Lost 1]), ([true], [NetworkEvent.Lost 9])],
    pendingMerges := [], params := witParams,
    output := ⟨0, 0, [], 0, 0, 0, 0, []⟩, rng := [] }

/-- Witness for C9: the split of the root section of `witSplitNet`. -/
theorem split_queue_transfer_witness :
    (mapFind? (processSingleEvent witSplitNet [] SectionEvent.RequestSplit).eventQueue []
        = none) ∧
    (mapFind? (processSingleEvent witSplitNet [] SectionEvent.RequestSplit).eventQueue
        (splitSection witSplitSec witSplitNet.params).1.1.pfx =
      some ((mapFind? witSplitNet.eventQueue
          (splitSection witSplitSec witSplitNet.params).1.1.pfx).getD [] ++
        (splitSection witSplitSec witSplitNet.params).1.2)) :=
  ⟨(split_queue_transfer witSplitNet [] witSplitSec (by decide) (by decide)).1,
   (split_queue_transfer witSplitNet [] witSplitSec (by decide) (by decide)).2.1⟩

/-! ## Claim C6: quiescence after `process_events` -/

theorem drainLoop_no_events :
    ∀ fuel net m, drainLoop fuel net = some m → hasEvents m = false := by
  intro fuel
  induction fuel with
  | zero =>
    intro net m h
    simp only [drainLoop] at h
    by_cases he : hasEvents net = true
    · simp [he] at h
    · simp only [he, if_false] at h
      cases h
      simpa using he
  | succ f ih =>
    intro net m h
    simp only [drainLoop] at h
    by_cases he : hasEvents net = true
    · rw [if_pos he] at h
      exact ih _ _ h
    · rw [if_neg he] at h
      cases h
      simpa using he

theorem anyNE_erase (q : SMap (List NetworkEvent)) (k : Pfx)
    (h : q.any (fun e => !e.2.isEmpty) = false) :
    (mapErase q k).any (fun e => !e.2.isEmpty) = false := by
  rw [List.any_eq_false] at h ⊢
  intro e he
  exact h e (mapErase_mem he)

theorem finaliseOne_eventQueue (net : Network) (t : Pfx) :
    (finaliseOne net t).eventQueue = net.eventQueue ∨
    ∃ ps : List Pfx, (finaliseOne net t).eventQueue = ps.foldl mapErase net.eventQueue := by
  unfold finaliseOne
  cases hf : mapFind? net.pendingMerges t with
  | none => exact Or.inl rfl
  | some pm =>
    refine Or.inr ⟨mapKeys pm.complete, ?_⟩
    cases hcomb : combineSections net.params
        ((mapKeys pm.complete).filterMap (fun q => mapFind? net.nodes q)) with
    | none => simp [hcomb]
    | some merged => simp [hcomb]

theorem finaliseOne_no_events (net : Network) (t : Pfx) (h : hasEvents net = false) :
    hasEvents (finaliseOne net t) = false := by
  have h' : net.eventQueue.any (fun e => !e.2.isEmpty) = false := h
  rcases finaliseOne_eventQueue net t with he | ⟨ps, he⟩
  · show (finaliseOne net t).eventQueue.any (fun e => !e.2.isEmpty) = false
    rw [he]; exact h'
  · show (finaliseOne net t).eventQueue.any (fun e => !e.2.isEmpty) = false
    rw [he]
    exact foldl_preserve mapErase
      (fun q : SMap (List NetworkEvent) => q.any (fun e => !e.2.isEmpty) = false)
      ps net.eventQueue h' (fun q k hk => anyNE_erase q k hk)

theorem finaliseMerges_no_events (net : Network) (h : hasEvents net = false) :
    hasEvents (finaliseMerges net) = false :=
  foldl_preserve finaliseOne (fun n => hasEvents n = false) _ net h
    (fun n t hn => finaliseOne_no_events n t hn)

/-- Claim C6: whenever `process_events` returns, every event queue is empty —
merge finalisation and the structural snapshot enqueue nothing. -/
theorem process_events_quiescent (fuel : Nat) (net net' : Network)
    (h : processEvents fuel net = some net') : hasEvents net' = false := by
  unfold processEvents at h
  cases hd : drainLoop fuel net with
  | none => rw [hd] at h; cases h
  | some m =>
    rw [hd] at h
    simp only [Option.map_some'] at h
    cases h
    have hm := drainLoop_no_events fuel net m hd
    exact finaliseMerges_no_events m hm

/-- Witness for C6: a `process_events` run on the concrete network. -/
theorem process_events_quiescent_witness :
    hasEvents (captureStructure (finaliseMerges witNet)) = false :=
  process_events_quiescent 0 witNet (captureStructure (finaliseMerges witNet)) (by decide)

/-! ## Claim C8: the structural snapshot and the output file -/

theorem relocate_output_ns (net : Network) (node : Node) :
    (relocateNode net node).output.networkStructure = net.output.networkStructure := by
  cases h : (mapKeys net.nodes).find? (fun q => pfxMatches q node.name) with
  | none => simp [relocateNode, h]
  | some src => simp [relocateNode, h]

theorem mergeInstall_output (net : Network) (t : Pfx) :
    (mergeInstall net t).output = net.output := by
  unfold mergeInstall
  cases hcomb : combineSections net.params
      (((mapKeys net.nodes).filter (fun q => isAnc t q)).filterMap
        (fun q => mapFind? net.nodes q)) with
  | none => simp [hcomb]
  | some merged =>
    simp only [hcomb]
    refine foldl_preserve _ (fun n : Network => n.output = net.output) _ _ rfl ?_
    intro x a hx
    exact hx

theorem mergeSections_output (net : Network) (p : Pfx) :
    (mergeSections net p).output = net.output := by
  unfold mergeSections
  cases hc : (mapKeys net.pendingMerges).find? (fun c => isCompat c (pfxShorten p)) with
  | none =>
    simp only [hc]
    exact mergeInstall_output net _
  | some c =>
    simp only [hc]
    by_cases ha : isAnc c (pfxShorten p) = true
    · simp [ha]
    · simp only [ha, Bool.false_eq_true, if_false]
      exact mergeInstall_output _ _

theorem processSingleEvent_ns (net : Network) (p : Pfx) (se : SectionEvent) :
    (processSingleEvent net p se).output.networkStructure = net.output.networkStructure := by
  cases se with
  | NodeDropped n => rfl
  | NodeRejected n => rfl
  | NeedRelocate n => exact relocate_output_ns net n
  | RequestMerge =>
    show (mergeSections net p).output.networkStructure = net.output.networkStructure
    rw [mergeSections_output]
  | RequestSplit =>
    cases h : mapFind? net.nodes p with
    | none => simp [processSingleEvent, h]
    | some sec => simp [processSingleEvent, h]

theorem deliverToSection_output (p : Pfx) (net0 : Network) (ev : NetworkEvent) :
    (deliverToSection p net0 ev).1.output = net0.output := by
  unfold deliverToSection
  cases h : mapFind? net0.nodes p with
  | none => rfl
  | some sec => rfl

theorem notePrefixChange_output (p : Pfx) (net1 : Network) (ev : NetworkEvent) :
    (notePrefixChange p net1 ev).output = net1.output := by
  unfold notePrefixChange
  cases ev with
  | PrefixChange t =>
    cases h : mapFind? net1.pendingMerges t with
    | none => simp [h]
    | some pm => simp [h]
  | Live n c => rfl
  | Lost n => rfl
  | Gone n => rfl
  | Relocated n => rfl
  | StartMerge t => rfl

theorem deliverStep_output (p : Pfx) (acc : Network × List SectionEvent) (ev : NetworkEvent) :
    (deliverStep p acc ev).1.output = acc.1.output := by
  show (notePrefixChange p (deliverToSection p acc.1 ev).1 ev).output = acc.1.output
  rw [notePrefixChange_output, deliverToSection_output]

theorem handleQueueEntry_ns (net : Network) (entry : Pfx × List NetworkEvent) :
    (handleQueueEntry net entry).output.networkStructure = net.output.networkStructure := by
  unfold handleQueueEntry
  have h1 : (entry.2.foldl (deliverStep entry.1) (net, [])).1.output.networkStructure =
      net.output.networkStructure :=
    foldl_preserve (deliverStep entry.1)
      (fun x => x.1.output.networkStructure = net.output.networkStructure)
      entry.2 (net, []) rfl
      (fun x a hx => by dsimp only; rw [deliverStep_output]; exact hx)
  exact foldl_preserve _
    (fun n : Network => n.output.networkStructure = net.output.networkStructure)
    _ _ h1 (fun x a hx => by dsimp only; rw [processSingleEvent_ns]; exact hx)

theorem drainPass_ns (net : Network) :
    (drainPass net).output.networkStructure = net.output.networkStructure :=
  foldl_preserve handleQueueEntry
    (fun n : Network => n.output.networkStructure = net.output.networkStructure)
    net.eventQueue { net with eventQueue := [] } rfl
    (fun x a hx => by dsimp only; rw [handleQueueEntry_ns]; exact hx)

theorem drainLoop_ns :
    ∀ fuel net m, drainLoop fuel net = some m →
      m.output.networkStructure = net.output.networkStructure := by
  intro fuel
  induction fuel with
  | zero =>
    intro net m h
    simp only [drainLoop] at h
    by_cases he : hasEvents net = true
    · simp [he] at h
    · rw [if_neg he] at h
      cases h
      rfl
  | succ f ih =>
    intro net m h
    simp only [drainLoop] at h
    by_cases he : hasEvents net = true
    · rw [if_pos he] at h
      rw [ih _ _ h, drainPass_ns]
    · rw [if_neg he] at h
      cases h
      rfl

theorem finaliseOne_ns (net : Network) (t : Pfx) :
    (finaliseOne net t).output.networkStructure = net.output.networkStructure := by
  unfold finaliseOne
  cases hf : mapFind? net.pendingMerges t with
  | none => rfl
  | some pm =>
    cases hcomb : combineSections net.params
        ((mapKeys pm.complete).filterMap (fun q => mapFind? net.nodes q)) with
    | none => simp [hcomb]
    | some merged => simp [hcomb]

theorem finaliseMerges_ns (net : Network) :
    (finaliseMerges net).output.networkStructure = net.output.networkStructure :=
  foldl_preserve finaliseOne
    (fun n : Network => n.output.networkStructure = net.output.networkStructure)
    _ net rfl (fun x a hx => by dsimp only; rw [finaliseOne_ns]; exact hx)

theorem fileLinesFrom_enum (l : List NetworkStructure) :
    ∀ i, fileLinesFrom i l = (l.enumFrom i).map (fun e => structLine e.1 e.2) := by
  induction l with
  | nil => intro i; rfl
  | cons d rest ih =>
    intro i
    simp [fileLinesFrom, List.enumFrom, ih]

/-- Claim C8: every completed `process_events` call appends exactly one
snapshot record — total node count, section count and complete-section count
of the post-finalisation state — to the structure log, and the structural
output file consists of one line `"i size sections complete\n"` per record,
where `i` is the record's zero-based index. -/
theorem structure_snapshot_and_file :
    (∀ fuel net net', processEvents fuel net = some net' →
      ∃ m, drainLoop fuel net = some m ∧
        net' = captureStructure (finaliseMerges m) ∧
        net'.output.networkStructure = net.output.networkStructure ++
          [⟨networkSize (finaliseMerges m), numSections (finaliseMerges m),
            numComplete (finaliseMerges m)⟩]) ∧
    (∀ data, outputStructureFile data = data.enum.map (fun e => structLine e.1 e.2)) := by
  constructor
  · intro fuel net net' h
    unfold processEvents at h
    cases hd : drainLoop fuel net with
    | none => rw [hd] at h; cases h
    | some m =>
      rw [hd] at h
      simp only [Option.map_some'] at h
      injection h with h'
      refine ⟨m, rfl, h'.symm, ?_⟩
      rw [← h']
      show (finaliseMerges m).output.networkStructure ++ _ =
        net.output.networkStructure ++ _
      rw [finaliseMerges_ns, drainLoop_ns fuel net m hd]
  · intro data
    exact fileLinesFrom_enum data 0

/-- Witness for C8: the snapshot appended by a concrete `process_events`
run. -/
theorem structure_snapshot_and_file_witness :
    (captureStructure (finaliseMerges witNet)).output.networkStructure =
      witNet.output.networkStructure ++
        [⟨networkSize (finaliseMerges witNet), numSections (finaliseMerges witNet),
          numComplete (finaliseMerges witNet)⟩] := by
  obtain ⟨m, hm, hnet, happ⟩ :=
    structure_snapshot_and_file.1 0 witNet (captureStructure (finaliseMerges witNet)) (by decide)
  have hmw : m = witNet := by
    have : some m = some witNet := by rw [← hm]; decide
    exact Option.some.inj this
  rw [hmw] at happ
  exact happ

/-! ## Claim C2: pending-merge subsumption -/

theorem mergeInstall_pendingMerges (net : Network) (t : Pfx) :
    (mergeInstall net t).pendingMerges =
      mapInsert net.pendingMerges t
        (pmFromPfxs ((mapKeys net.nodes).filter (fun q => isAnc t q))) := by
  unfold mergeInstall
  cases hcomb : combineSections net.params
      (((mapKeys net.nodes).filter (fun q => isAnc t q)).filterMap
        (fun q => mapFind? net.nodes q)) with
  | none => simp [hcomb]
  | some merged =>
    simp only [hcomb]
    refine foldl_preserve _
      (fun n : Network => n.pendingMerges =
        mapInsert net.pendingMerges t
          (pmFromPfxs ((mapKeys net.nodes).filter (fun q => isAnc t q))))
      _ _ rfl ?_
    intro x a hx
    exact hx

/-- Claim C2: a `RequestMerge` whose target `T'` is compatible with the
target `T` of an existing pending merge is ignored entirely when `T` is an
ancestor of `T'`; otherwise the pending merge for `T` is cancelled and the
new pending merge for `T'` is installed. -/
theorem merge_subsumption (net : Network) (p c : Pfx) ( _hp : p ≠ [])
    (hfind : (mapKeys net.pendingMerges).find?
      (fun t => isCompat t (pfxShorten p)) = some c) :
    (isAnc c (pfxShorten p) = true → mergeSections net p = net) ∧
    (isAnc c (pfxShorten p) = false →
      mapFind? (mergeSections net p).pendingMerges c = none ∧
      mapFind? (mergeSections net p).pendingMerges (pfxShorten p) =
        some (pmFromPfxs
          ((mapKeys net.nodes).filter (fun q => isAnc (pfxShorten p) q)))) := by
  constructor
  · intro ha
    simp [mergeSections, hfind, ha]
  · intro ha
    have hne : c ≠ pfxShorten p := by
      intro he
      rw [he, isAnc_refl] at ha
      cases ha
    have heq : mergeSections net p =
        mergeInstall { net with pendingMerges := mapErase net.pendingMerges c }
          (pfxShorten p) := by
      simp [mergeSections, hfind, ha]
    rw [heq, mergeInstall_pendingMerges]
    constructor
    · rw [mapFind?_insert_ne _ _ (Ne.symm hne)]
      exact mapFind?_erase_self _ c
    · exact mapFind?_insert_self _ _ _

/-- A pending merge used by the C2 witness: target `10`, participants the
two children of `10`, with a fresh request arriving from `10` itself so that
the new target is `1`. -/
def witMergeNet : Network :=
  { nodes := [([false], ⟨[false], [], 0, false⟩),
              ([true, false], ⟨[true, false], [], 0, false⟩),
              ([true, true], ⟨[true, true], [], 0, false⟩)],
    leftNodes := [], eventQueue := [],
    pendingMerges := [([true, false], pmFromPfxs [[true, false, false], [true, false, true]])],
    params := witParams,
    output := ⟨0, 0, [], 0, 0, 0, 0, []⟩, rng := [] }

/-- Witness for C2 at `witMergeNet`: the request from `10` targets `1`,
which is an ancestor of the pending target `100 → 10`; the old pending merge
is cancelled and the new one installed. -/
theorem merge_subsumption_witness :
    (isAnc [true, false] (pfxShorten [true, false]) = true →
      mergeSections witMergeNet [true, false] = witMergeNet) ∧
    (isAnc [true, false] (pfxShorten [true, false]) = false →
      mapFind? (mergeSections witMergeNet [true, false]).pendingMerges [true, false] = none ∧
      mapFind? (mergeSections witMergeNet [true, false]).pendingMerges
          (pfxShorten [true, false]) =
        some (pmFromPfxs ((mapKeys witMergeNet.nodes).filter
          (fun q => isAnc (pfxShorten [true, false]) q)))) :=
  merge_subsumption witMergeNet [true, false] [true, false] (by decide) (by decide)

/-! ## Claim C5: relocation -/

theorem nodeRelocate_matches (node : Node) (t : Pfx) (r : Nat) :
    pfxMatches t (nodeRelocate node t r).name = true := by
  have hB : 0 < 2 ^ (64 - t.length) := Nat.pos_pow_of_pos _ (by norm_num)
  show ((pfxToNat t * 2 ^ (64 - t.length) + r % 2 ^ (64 - t.length)) /
      2 ^ (64 - t.length) == pfxToNat t) = true
  rw [Nat.mul_comm, Nat.mul_add_div hB, Nat.div_eq_of_lt (Nat.mod_lt _ hB), Nat.add_zero]
  simp

/-- Claim C5: relocation increments the relocation counter by one and churn
by two, targets the neighbour of the node's section with the least
`len × 10000 + size` (ties by the ascending stable sort, the section itself
when no neighbour exists), rewrites the node's name to match the target with
its age incremented, and enqueues a counting `Live` onto the target's
queue. -/
theorem relocate_behaviour (net : Network) (node : Node) (src : Pfx)
    (hfind : (mapKeys net.nodes).find? (fun q => pfxMatches q node.name) = some src) :
    relocateNode net node =
      { net with
        output := { net.output with
                    relocations := net.output.relocations + 1,
                    churn := net.output.churn + 2 },
        rng := net.rng.tail,
        eventQueue := entryAppend net.eventQueue (relocTarget net src)
          [NetworkEvent.Live
            (nodeRelocate node (relocTarget net src) (net.rng.headD 0)) true] } ∧
    ((mapKeys net.nodes).filter (fun q => isNbr q src) = [] →
      relocTarget net src = src) ∧
    ((mapKeys net.nodes).filter (fun q => isNbr q src) ≠ [] →
      relocTarget net src ∈ (mapKeys net.nodes).filter (fun q => isNbr q src)) ∧
    (∀ q ∈ (mapKeys net.nodes).filter (fun q => isNbr q src),
      relocCost net (relocTarget net src) ≤ relocCost net q) ∧
    pfxMatches (relocTarget net src)
      (nodeRelocate node (relocTarget net src) (net.rng.headD 0)).name = true ∧
    (nodeRelocate node (relocTarget net src) (net.rng.headD 0)).age =
      min (node.age + 1) 255 := by
  have htot : ∀ x y : Pfx, decide (relocCost net x ≤ relocCost net y) = false →
      decide (relocCost net y ≤ relocCost net x) = true := by
    intro x y h
    simp at h ⊢
    omega
  have htrans : ∀ x y z : Pfx, decide (relocCost net x ≤ relocCost net y) = true →
      decide (relocCost net y ≤ relocCost net z) = true →
      decide (relocCost net x ≤ relocCost net z) = true := by
    intro x y z h1 h2
    simp at h1 h2 ⊢
    omega
  refine ⟨?_, ?_, ?_, ?_, nodeRelocate_matches node _ _, rfl⟩
  · simp [relocateNode, hfind]
  · intro hnil
    simp [relocTarget, hnil, sortBy]
  · intro hne
    unfold relocTarget
    cases hs : sortBy (fun a b => decide (relocCost net a ≤ relocCost net b))
        ((mapKeys net.nodes).filter (fun q => isNbr q src)) with
    | nil =>
      exfalso
      have := sortBy_length (fun a b => decide (relocCost net a ≤ relocCost net b))
        ((mapKeys net.nodes).filter (fun q => isNbr q src))
      rw [hs] at this
      exact hne (List.length_eq_zero.mp this.symm)
    | cons a rest =>
      have : a ∈ sortBy (fun a b => decide (relocCost net a ≤ relocCost net b))
          ((mapKeys net.nodes).filter (fun q => isNbr q src)) := by
        rw [hs]; exact List.mem_cons_self _ _
      simpa [List.headD] using sortBy_mem.mp this
  · intro q hq
    unfold relocTarget
    cases hs : sortBy (fun a b => decide (relocCost net a ≤ relocCost net b))
        ((mapKeys net.nodes).filter (fun q => isNbr q src)) with
    | nil =>
      exfalso
      have := sortBy_length (fun a b => decide (relocCost net a ≤ relocCost net b))
        ((mapKeys net.nodes).filter (fun q => isNbr q src))
      rw [hs] at this
      rw [List.length_eq_zero.mp this.symm] at hq
      cases hq
    | cons a rest =>
      have := sortBy_head_min htot htrans hs q hq
      simpa [List.headD] using this

/-- Witness for C5: relocating the node named 1 from section `0` of the
concrete two-section network (its only neighbour being `1`). -/
theorem relocate_behaviour_witness :
    relocateNode witNet ⟨1, 10⟩ =
      { witNet with
        output := { witNet.output with
                    relocations := witNet.output.relocations + 1,
                    churn := witNet.output.churn + 2 },
        rng := witNet.rng.tail,
        eventQueue := entryAppend witNet.eventQueue (relocTarget witNet [false])
          [NetworkEvent.Live
            (nodeRelocate ⟨1, 10⟩ (relocTarget witNet [false]) (witNet.rng.headD 0)) true] } ∧
    pfxMatches (relocTarget witNet [false])
      (nodeRelocate ⟨1, 10⟩ (relocTarget witNet [false]) (witNet.rng.headD 0)).name = true :=
  ⟨(relocate_behaviour witNet ⟨1, 10⟩ [false] (by decide)).1,
   (relocate_behaviour witNet ⟨1, 10⟩ [false] (by decide)).2.2.2.2.1⟩

/-! ## Claim C1: age-weighted drop selection and the `drop_dist` parameter -/

/-- The claim's acceptance rule, following its own words: the weighting
formula is selected by `drop_dist` — `exp` accepts a candidate of age `a`
when `r mod 2^a = 0` (each +1 of age halves the drop probability), `rev`
accepts when `r mod a = 0` (weight proportional to `1/a`). -/
def claimAccept (dist : DropDist) (age r : Nat) : Bool :=
  match dist with
  | DropDist.exp => r % 2 ^ age == 0
  | DropDist.rev => r % age == 0

/-- The claim-side scan: the i-th candidate is tested against the i-th draw
of the stream; the first accepted candidate and its index are returned. -/
def findAccept (dist : DropDist) (rng : List Nat) :
    Nat → List (Pfx × Node) → Option (Nat × (Pfx × Node))
  | _, [] => none
  | i, c :: rest =>
    if claimAccept dist c.2.age (rng.getD i 0) then some (i, c)
    else findAccept dist rng (i + 1) rest

/-- The post-state the claim prescribes for `drop_random_node` under a given
weighting formula: the first accepted node of the age-ascending candidate
list has `Lost` enqueued, drops and churn up by one and the histogram bumped
at its age; one draw is consumed per examined candidate. -/
def claimDropResult (dist : DropDist) (net : Network) : Network :=
  match findAccept dist net.rng 0 (dropCandidates net) with
  | none => { net with rng := net.rng.drop (dropCandidates net).length }
  | some (i, (p, n)) =>
    { net with
      rng := net.rng.drop (i + 1),
      output := { net.output with
                  drops := net.output.drops + 1,
                  churn := net.output.churn + 1,
                  dropsDist := bumpDist net.output.dropsDist n.age },
      eventQueue := entryAppend net.eventQueue p [NetworkEvent.Lost n.name] }

/-- Claim C1 as stated, at one network state: `drop_random_node` behaves as
the weighting formula chosen by the `drop_dist` parameter prescribes. -/
def dropClaimHolds (net : Network) : Prop :=
  dropRandomNode net = claimDropResult net.params.dropDist net

/-- A network with `drop_dist = rev`, one node of age 3 and the random draw
3: the claim's `rev` rule accepts (3 mod 3 = 0) but the code tests
3 mod 2³ ≠ 0 and drops nothing. -/
def revNet : Network :=
  { nodes := [([], ⟨[], [⟨5, 3⟩], 0, false⟩)],
    leftNodes := [], eventQueue := [], pendingMerges := [],
    params := ⟨4, 1, SplitStrat.complete, DropDist.rev, false⟩,
    output := ⟨0, 0, [], 0, 0, 0, 0, []⟩, rng := [3] }

/-- Counterexample to C1: with the `rev` distribution the code does not
follow the claimed `1/age` weighting — it still applies the `mod 2^age`
test, so the states differ at `revNet`. -/
theorem drop_dist_counterexample : ¬ dropClaimHolds revNet := by
  unfold dropClaimHolds
  decide

theorem dropScan_eq_findAccept (cands : List (Pfx × Node)) :
    ∀ i rng, dropScan cands (rng.drop i) =
      (match findAccept DropDist.exp rng i cands with
       | some (j, c) => (some c, rng.drop (j + 1))
       | none => (none, rng.drop (i + cands.length))) := by
  induction cands with
  | nil => intro i rng; simp [dropScan, findAccept]
  | cons c rest ih =>
    intro i rng
    simp only [dropScan, findAccept, claimAccept]
    rw [headD_drop]
    by_cases h : rng[i]?.getD 0 % 2 ^ c.2.age = 0
    · simp [h, List.tail_drop]
    · simp [h, List.tail_drop]
      rw [ih (i + 1) rng]
      cases hfa : findAccept DropDist.exp rng (i + 1) rest with
      | none =>
        simp only [hfa]
        rw [show i + 1 + rest.length = i + (rest.length + 1) from by omega]
      | some jc => simp [hfa]

/-- Amended claim C1: `drop_random_node` iterates the sections' members
sorted by age ascending and accepts the candidate of age `a` with draw `r`
exactly when `r mod 2^a = 0`, regardless of the `drop_dist` parameter (the
parameter is never consulted); the first accepted node has `Lost(name)`
enqueued to its section, drops and churn counters are incremented by one and
the drop-by-age histogram gains one at that node's age. -/
theorem drop_ignores_dist (net : Network) :
    dropRandomNode net = claimDropResult DropDist.exp net := by
  unfold dropRandomNode claimDropResult
  have h := dropScan_eq_findAccept (dropCandidates net) 0 net.rng
  rw [List.drop_zero] at h
  rw [h]
  cases hfa : findAccept DropDist.exp net.rng 0 (dropCandidates net) with
  | none => simp
  | some ic =>
    obtain ⟨i, p, n⟩ := ic
    simp

/-! ## The prefix of a combined section: machinery for C3 and C4 -/

theorem lcp_comm (p q : Pfx) : lcp p q = lcp q p := by
  induction p generalizing q with
  | nil => cases q <;> rfl
  | cons a as_ ih =>
    cases q with
    | nil => rfl
    | cons b bs =>
      by_cases hab : a = b
      · subst hab
        simp [lcp, ih]
      · simp [lcp, hab, Ne.symm hab]

theorem lcp_absorb_right {t q : Pfx} (h : isAnc t q = true) : lcp q t = t := by
  rw [lcp_comm]
  exact lcp_absorb h

/-- One pairwise-merge step: if one argument sits below the `b`-child of `T`
and the other anywhere below `T`, the common prefix is either `T` itself or
still below the `b`-child. -/
theorem lcp_preserves_side {T p q : Pfx} {b : Bool}
    (hp : isAnc (T ++ [b]) p = true) (hq : isAnc T q = true) :
    lcp p q = T ∨ isAnc (T ++ [b]) (lcp p q) = true := by
  by_cases hqT : q = T
  · left
    rw [hqT]
    exact lcp_absorb_right (isAnc_append_right hp)
  · rcases isAnc_side hq hqT with h' | h'
    · cases b
      · exact Or.inr (isAnc_lcp hp h')
      · exact Or.inl (lcp_cross (b := true) hp (by simpa using h'))
    · cases b
      · exact Or.inl (lcp_cross (b := false) hp (by simpa using h'))
      · exact Or.inr (isAnc_lcp hp h')

/-- The side-or-target invariant carried through the combination loop. -/
def sideInv (T : Pfx) (ss : List Section) : Prop :=
  (∃ s ∈ ss, s.pfx = T) ∨
  ((∃ s ∈ ss, isAnc (T ++ [false]) s.pfx = true) ∧
   (∃ s ∈ ss, isAnc (T ++ [true]) s.pfx = true))

theorem sideInv_of_perm {T : Pfx} {ss ss' : List Section}
    (hp : List.Perm ss ss') (h : sideInv T ss) : sideInv T ss' := by
  rcases h with ⟨s, hs, hsT⟩ | ⟨⟨s0, hs0, h0⟩, ⟨s1, hs1, h1⟩⟩
  · exact Or.inl ⟨s, hp.mem_iff.mp hs, hsT⟩
  · exact Or.inr ⟨⟨s0, hp.mem_iff.mp hs0, h0⟩, ⟨s1, hp.mem_iff.mp hs1, h1⟩⟩

theorem sideInv_merge_head {T : Pfx} (params : Params) (x y : Section)
    (hax : isAnc T x.pfx = true) (hay : isAnc T y.pfx = true)
    {b : Bool} {e : Section}
    (he : e = x ∨ e = y) (hside : isAnc (T ++ [b]) e.pfx = true) :
    (mergeSec params x y).pfx = T ∨
      isAnc (T ++ [b]) (mergeSec params x y).pfx = true := by
  have hpfx : (mergeSec params x y).pfx = lcp x.pfx y.pfx := rfl
  rcases he with he | he
  · rw [hpfx]
    exact lcp_preserves_side (he ▸ hside) hay
  · rw [hpfx, lcp_comm]
    exact lcp_preserves_side (he ▸ hside) hax

theorem sideInv_merge_step {T : Pfx} (params : Params) (x y : Section) (r2 : List Section)
    (hax : isAnc T x.pfx = true) (hay : isAnc T y.pfx = true)
    (hinv : sideInv T (x :: y :: r2)) :
    sideInv T (mergeSec params x y :: r2) := by
  have hpfx : (mergeSec params x y).pfx = lcp x.pfx y.pfx := rfl
  rcases hinv with ⟨s, hs, hsT⟩ | ⟨⟨s0, hs0, h0⟩, ⟨s1, hs1, h1⟩⟩
  · rcases List.mem_cons.mp hs with hsx | hs'
    · left
      refine ⟨mergeSec params x y, List.mem_cons_self _ _, ?_⟩
      rw [hpfx, show x.pfx = T from hsx ▸ hsT]
      exact lcp_absorb hay
    · rcases List.mem_cons.mp hs' with hsy | hr
      · left
        refine ⟨mergeSec params x y, List.mem_cons_self _ _, ?_⟩
        rw [hpfx, show y.pfx = T from hsy ▸ hsT]
        exact lcp_absorb_right hax
      · exact Or.inl ⟨s, List.mem_cons_of_mem _ hr, hsT⟩
  · rcases List.mem_cons.mp hs0 with hs0x | hs0'
    · rcases List.mem_cons.mp hs1 with hs1x | hs1'
      · exfalso
        exact isAnc_not_both (hs0x ▸ h0) (hs1x ▸ h1)
      · rcases List.mem_cons.mp hs1' with hs1y | hr1
        · -- s0 = x (side 0), s1 = y (side 1): the merge collapses to T
          left
          refine ⟨mergeSec params x y, List.mem_cons_self _ _, ?_⟩
          rw [hpfx]
          exact lcp_cross (b := false) (hs0x ▸ h0) (by simpa using hs1y ▸ h1)
        · -- s0 = x in the merged pair, s1 survives in the tail
          rcases sideInv_merge_head params x y hax hay (Or.inl hs0x) h0 with hT | hb
          · exact Or.inl ⟨mergeSec params x y, List.mem_cons_self _ _, hT⟩
          · exact Or.inr ⟨⟨mergeSec params x y, List.mem_cons_self _ _, hb⟩,
              ⟨s1, List.mem_cons_of_mem _ hr1, h1⟩⟩
    · rcases List.mem_cons.mp hs0' with hs0y | hr0
      · rcases List.mem_cons.mp hs1 with hs1x | hs1'
        · -- s0 = y (side 0), s1 = x (side 1)
          left
          refine ⟨mergeSec params x y, List.mem_cons_self _ _, ?_⟩
          rw [hpfx]
          exact lcp_cross (b := true) (hs1x ▸ h1) (by simpa using hs0y ▸ h0)
        · rcases List.mem_cons.mp hs1' with hs1y | hr1
          · exfalso
            exact isAnc_not_both (hs0y ▸ h0) (hs1y ▸ h1)
          · rcases sideInv_merge_head params x y hax hay (Or.inr hs0y) h0 with hT | hb
            · exact Or.inl ⟨mergeSec params x y, List.mem_cons_self _ _, hT⟩
            · exact Or.inr ⟨⟨mergeSec params x y, List.mem_cons_self _ _, hb⟩,
                ⟨s1, List.mem_cons_of_mem _ hr1, h1⟩⟩
      · rcases List.mem_cons.mp hs1 with hs1x | hs1'
        · rcases sideInv_merge_head params x y hax hay (Or.inl hs1x) h1 with hT | hb
          · exact Or.inl ⟨mergeSec params x y, List.mem_cons_self _ _, hT⟩
          · exact Or.inr ⟨⟨s0, List.mem_cons_of_mem _ hr0, h0⟩,
              ⟨mergeSec params x y, List.mem_cons_self _ _, hb⟩⟩
        · rcases List.mem_cons.mp hs1' with hs1y | hr1
          · rcases sideInv_merge_head params x y hax hay (Or.inr hs1y) h1 with hT | hb
            · exact Or.inl ⟨mergeSec params x y, List.mem_cons_self _ _, hT⟩
            · exact Or.inr ⟨⟨s0, List.mem_cons_of_mem _ hr0, h0⟩,
                ⟨mergeSec params x y, List.mem_cons_self _ _, hb⟩⟩
          · exact Or.inr ⟨⟨s0, List.mem_cons_of_mem _ hr0, h0⟩,
              ⟨s1, List.mem_cons_of_mem _ hr1, h1⟩⟩

theorem sideInv_single {T : Pfx} {s : Section} (h : sideInv T [s]) : s.pfx = T := by
  rcases h with ⟨s', hs', hT⟩ | ⟨⟨s0, hs0, h0⟩, ⟨s1, hs1, h1⟩⟩
  · have : s' = s := by simpa using hs'
    rw [← this]
    exact hT
  · have h0' : s0 = s := by simpa using hs0
    have h1' : s1 = s := by simpa using hs1
    exact absurd (isAnc_not_both (h0' ▸ h0) (h1' ▸ h1)) (fun h => h)

theorem combineLoop_pfx (params : Params) (T : Pfx) :
    ∀ fuel ss, ss ≠ [] → ss.length ≤ fuel + 1 →
      (∀ s ∈ ss, isAnc T s.pfx = true) → sideInv T ss →
      ∃ m, combineLoop params fuel ss = some m ∧ m.pfx = T := by
  intro fuel
  induction fuel with
  | zero =>
    intro ss hne hlen hanc hinv
    cases ss with
    | nil => exact absurd rfl hne
    | cons a tl =>
      cases tl with
      | nil => exact ⟨a, by simp [combineLoop], sideInv_single hinv⟩
      | cons b rest => simp at hlen
  | succ f ih =>
    intro ss hne hlen hanc hinv
    cases ss with
    | nil => exact absurd rfl hne
    | cons a tl =>
      cases tl with
      | nil => exact ⟨a, by simp [combineLoop], sideInv_single hinv⟩
      | cons b rest =>
        have hperm : List.Perm
            (sortBy (fun a b : Section => !pfxLt a.pfx b.pfx) (a :: b :: rest))
            (a :: b :: rest) :=
          sortBy_perm _ _
        obtain ⟨x, y, r2, hs⟩ : ∃ x y r2,
            sortBy (fun a b : Section => !pfxLt a.pfx b.pfx) (a :: b :: rest) =
              x :: y :: r2 := by
          have hlen2 := sortBy_length (fun a b : Section => !pfxLt a.pfx b.pfx) (a :: b :: rest)
          cases hs : sortBy (fun a b : Section => !pfxLt a.pfx b.pfx) (a :: b :: rest) with
          | nil => rw [hs] at hlen2; simp at hlen2
          | cons x tl2 =>
            cases tl2 with
            | nil => rw [hs] at hlen2; simp at hlen2
            | cons y r2 => exact ⟨x, y, r2, rfl⟩
        have hancs : ∀ s ∈ x :: y :: r2, isAnc T s.pfx = true := by
          intro s hmem
          exact hanc s (hperm.mem_iff.mp (hs ▸ hmem))
        have hinv' : sideInv T (x :: y :: r2) :=
          hs ▸ sideInv_of_perm hperm.symm hinv
        have hax : isAnc T x.pfx = true := hancs x (List.mem_cons_self _ _)
        have hay : isAnc T y.pfx = true :=
          hancs y (List.mem_cons_of_mem _ (List.mem_cons_self _ _))
        have hnew_anc : ∀ s ∈ mergeSec params x y :: r2, isAnc T s.pfx = true := by
          intro s hmem
          rcases List.mem_cons.mp hmem with hh | hr
          · rw [hh]
            exact isAnc_lcp hax hay
          · exact hancs s (List.mem_cons_of_mem _ (List.mem_cons_of_mem _ hr))
        have hnew_inv : sideInv T (mergeSec params x y :: r2) :=
          sideInv_merge_step params x y r2 hax hay hinv'
        have hlen' : (mergeSec params x y :: r2).length ≤ f + 1 := by
          have hlen2 := sortBy_length (fun a b : Section => !pfxLt a.pfx b.pfx) (a :: b :: rest)
          rw [hs] at hlen2
          simp only [List.length_cons] at hlen2 hlen ⊢
          omega
        obtain ⟨m, hm, hmT⟩ := ih (mergeSec params x y :: r2) (by simp) hlen' hnew_anc hnew_inv
        refine ⟨m, ?_, hmT⟩
        simp only [combineLoop, hs]
        exact hm

/-! ## Claim C3: the merge preamble -/

theorem smapfold_find_notmem {α : Type} (f : Pfx → α) :
    ∀ (ps : List Pfx) (m : SMap α) (q : Pfx), q ∉ ps →
      mapFind? (ps.foldl (fun acc k => mapInsert acc k (f k)) m) q = mapFind? m q := by
  intro ps
  induction ps with
  | nil => intro m q _; rfl
  | cons k rest ih =>
    intro m q hq
    simp only [List.foldl_cons]
    rw [ih _ _ (fun h => hq (List.mem_cons_of_mem _ h))]
    exact mapFind?_insert_ne m (f k) (fun h => hq (h ▸ List.mem_cons_self _ _))

theorem smapfold_find_mem {α : Type} (f : Pfx → α) :
    ∀ (ps : List Pfx) (m : SMap α), ps.Nodup →
      ∀ q ∈ ps, mapFind? (ps.foldl (fun acc k => mapInsert acc k (f k)) m) q = some (f q) := by
  intro ps
  induction ps with
  | nil => intro m _ q hq; cases hq
  | cons k rest ih =>
    intro m hnodup q hq
    simp only [List.foldl_cons]
    rcases List.mem_cons.mp hq with hk | hr
    · have hnotin : q ∉ rest := by
        rw [hk]
        exact (List.nodup_cons.mp hnodup).1
      rw [smapfold_find_notmem f rest _ q hnotin, hk, mapFind?_insert_self]
    · exact ih _ (List.nodup_cons.mp hnodup).2 q hr

theorem mergeQueueFold (merged : Section) :
    ∀ (ps : List Pfx) (n : Network),
      ps.foldl (fun n q =>
        { n with eventQueue := mapInsert n.eventQueue q (calcMergeEvents n.nodes merged q) }) n =
      { n with
        eventQueue :=
          ps.foldl (fun acc k => mapInsert acc k (calcMergeEvents n.nodes merged k))
            n.eventQueue } := by
  intro ps
  induction ps with
  | nil => intro n; rfl
  | cons k rest ih =>
    intro n
    simp only [List.foldl_cons]
    rw [ih]

theorem mergeInstall_spec (net0 : Network) (T : Pfx)
    (hkeys : ∀ e ∈ net0.nodes, e.2.pfx = e.1)
    (hnodup : (mapKeys net0.nodes).Nodup)
    (hside0 : ∃ q ∈ mapKeys net0.nodes, isAnc (T ++ [false]) q = true)
    (hside1 : ∃ q ∈ mapKeys net0.nodes, isAnc (T ++ [true]) q = true) :
    (mergeInstall net0 T).nodes = net0.nodes ∧
    mapFind? (mergeInstall net0 T).pendingMerges T =
      some (pmFromPfxs ((mapKeys net0.nodes).filter (fun q => isAnc T q))) ∧
    ∃ merged, combineSections net0.params
        (((mapKeys net0.nodes).filter (fun q => isAnc T q)).filterMap
          (fun q => mapFind? net0.nodes q)) = some merged ∧
      merged.pfx = T ∧
      ∀ q ∈ (mapKeys net0.nodes).filter (fun q => isAnc T q),
        mapFind? (mergeInstall net0 T).eventQueue q =
          some (calcMergeEvents net0.nodes merged q) := by
  obtain ⟨q0, hq0k, hq0s⟩ := hside0
  obtain ⟨q1, hq1k, hq1s⟩ := hside1
  have hps_def : ∀ q, q ∈ (mapKeys net0.nodes).filter (fun q => isAnc T q) ↔
      q ∈ mapKeys net0.nodes ∧ isAnc T q = true := by
    intro q
    simp [List.mem_filter]
  have hq0p : q0 ∈ (mapKeys net0.nodes).filter (fun q => isAnc T q) :=
    (hps_def q0).mpr ⟨hq0k, isAnc_append_right hq0s⟩
  have hq1p : q1 ∈ (mapKeys net0.nodes).filter (fun q => isAnc T q) :=
    (hps_def q1).mpr ⟨hq1k, isAnc_append_right hq1s⟩
  -- every gathered section sits below T and carries its key as its prefix
  have hgather : ∀ s ∈ ((mapKeys net0.nodes).filter (fun q => isAnc T q)).filterMap
      (fun q => mapFind? net0.nodes q),
      isAnc T s.pfx = true ∧ ∃ q, mapFind? net0.nodes q = some s ∧ s.pfx = q := by
    intro s hs
    obtain ⟨q, hqp, hqs⟩ := List.mem_filterMap.mp hs
    have hkey : s.pfx = q := hkeys (q, s) (mapFind?_mem hqs)
    refine ⟨?_, q, hqs, hkey⟩
    rw [hkey]
    exact ((hps_def q).mp hqp).2
  -- two witnesses on the two sides of T among the gathered sections
  obtain ⟨s0, hs0find⟩ := mapFind?_isSome_of_key hq0k
  obtain ⟨s1, hs1find⟩ := mapFind?_isSome_of_key hq1k
  have hs0mem : s0 ∈ ((mapKeys net0.nodes).filter (fun q => isAnc T q)).filterMap
      (fun q => mapFind? net0.nodes q) :=
    List.mem_filterMap.mpr ⟨q0, hq0p, hs0find⟩
  have hs1mem : s1 ∈ ((mapKeys net0.nodes).filter (fun q => isAnc T q)).filterMap
      (fun q => mapFind? net0.nodes q) :=
    List.mem_filterMap.mpr ⟨q1, hq1p, hs1find⟩
  have hs0pfx : s0.pfx = q0 := hkeys (q0, s0) (mapFind?_mem hs0find)
  have hs1pfx : s1.pfx = q1 := hkeys (q1, s1) (mapFind?_mem hs1find)
  have hne : ((mapKeys net0.nodes).filter (fun q => isAnc T q)).filterMap
      (fun q => mapFind? net0.nodes q) ≠ [] := by
    intro h
    rw [h] at hs0mem
    cases hs0mem
  obtain ⟨merged, hcomb, hmT⟩ :=
    combineLoop_pfx net0.params T
      (((mapKeys net0.nodes).filter (fun q => isAnc T q)).filterMap
        (fun q => mapFind? net0.nodes q)).length
      (((mapKeys net0.nodes).filter (fun q => isAnc T q)).filterMap
        (fun q => mapFind? net0.nodes q))
      hne (by omega)
      (fun s hs => (hgather s hs).1)
      (Or.inr ⟨⟨s0, hs0mem, by rw [hs0pfx]; exact hq0s⟩,
               ⟨s1, hs1mem, by rw [hs1pfx]; exact hq1s⟩⟩)
  have hcomb' : combineSections net0.params
      (((mapKeys net0.nodes).filter (fun q => isAnc T q)).filterMap
        (fun q => mapFind? net0.nodes q)) = some merged := hcomb
  have hfold := mergeQueueFold merged
    ((mapKeys net0.nodes).filter (fun q => isAnc T q))
    { net0 with
      pendingMerges :=
        mapInsert net0.pendingMerges T
          (pmFromPfxs ((mapKeys net0.nodes).filter (fun q => isAnc T q))) }
  have hinstall : mergeInstall net0 T =
      { net0 with
        pendingMerges :=
          mapInsert net0.pendingMerges T
            (pmFromPfxs ((mapKeys net0.nodes).filter (fun q => isAnc T q))),
        eventQueue :=
          ((mapKeys net0.nodes).filter (fun q => isAnc T q)).foldl
            (fun acc k => mapInsert acc k (calcMergeEvents net0.nodes merged k))
            net0.eventQueue } := by
    unfold mergeInstall
    simp only []
    rw [hcomb']
    exact hfold
  refine ⟨by rw [hinstall], by rw [hinstall]; exact mapFind?_insert_self _ _ _,
    merged, hcomb', hmT, ?_⟩
  intro q hq
  rw [hinstall]
  exact smapfold_find_mem (fun k => calcMergeEvents net0.nodes merged k) _ _
    (hnodup.filter _) q hq

/-- Claim C3: handling a `RequestMerge` from `p` (not subsumed by an existing
pending merge) gathers exactly the section keys below `target = p.shorten()`
as participants, installs an all-false pending merge for them, and replaces
each participant's queue with
`[StartMerge target, Gone(lost elders)…, Live(gained elders, false)…,
PrefixChange target]`, where the lost/gained elders are those of the
non-destructively simulated merged section; the section map is untouched. -/
theorem merge_preamble (net : Network) (p : Pfx) ( _hp : p ≠ [])
    (hkeys : ∀ e ∈ net.nodes, e.2.pfx = e.1)
    (hnodup : (mapKeys net.nodes).Nodup)
    (hsub : ∀ c, (mapKeys net.pendingMerges).find?
      (fun t => isCompat t (pfxShorten p)) = some c → isAnc c (pfxShorten p) = false)
    (hside0 : ∃ q ∈ mapKeys net.nodes, isAnc (pfxShorten p ++ [false]) q = true)
    (hside1 : ∃ q ∈ mapKeys net.nodes, isAnc (pfxShorten p ++ [true]) q = true) :
    (mergeSections net p).nodes = net.nodes ∧
    mapFind? (mergeSections net p).pendingMerges (pfxShorten p) =
      some (pmFromPfxs ((mapKeys net.nodes).filter (fun q => isAnc (pfxShorten p) q))) ∧
    ∃ merged, combineSections net.params
        (((mapKeys net.nodes).filter (fun q => isAnc (pfxShorten p) q)).filterMap
          (fun q => mapFind? net.nodes q)) = some merged ∧
      merged.pfx = pfxShorten p ∧
      ∀ q ∈ (mapKeys net.nodes).filter (fun q => isAnc (pfxShorten p) q),
        mapFind? (mergeSections net p).eventQueue q =
          some ([NetworkEvent.StartMerge (pfxShorten p)] ++
            (((mapFind? net.nodes q).elim [] elders).filter
              (fun e => e ∉ elders merged)).map NetworkEvent.Gone ++
            ((elders merged).filter
              (fun e => e ∉ (mapFind? net.nodes q).elim [] elders)).map
              (fun e => NetworkEvent.Live e false) ++
            [NetworkEvent.PrefixChange (pfxShorten p)]) := by
  cases hc : (mapKeys net.pendingMerges).find? (fun t => isCompat t (pfxShorten p)) with
  | none =>
    have heq : mergeSections net p = mergeInstall net (pfxShorten p) := by
      simp [mergeSections, hc]
    obtain ⟨h1, h2, merged, h3, h4, h5⟩ :=
      mergeInstall_spec net (pfxShorten p) hkeys hnodup hside0 hside1
    refine ⟨by rw [heq]; exact h1, by rw [heq]; exact h2, merged, h3, h4, ?_⟩
    intro q hq
    rw [heq, h5 q hq]
    simp [calcMergeEvents, h4]
  | some c =>
    have hanc := hsub c hc
    have heq : mergeSections net p =
        mergeInstall { net with pendingMerges := mapErase net.pendingMerges c }
          (pfxShorten p) := by
      simp [mergeSections, hc, hanc]
    obtain ⟨h1, h2, merged, h3, h4, h5⟩ :=
      mergeInstall_spec { net with pendingMerges := mapErase net.pendingMerges c }
        (pfxShorten p) hkeys hnodup hside0 hside1
    refine ⟨by rw [heq]; exact h1, by rw [heq]; exact h2, merged, h3, h4, ?_⟩
    intro q hq
    rw [heq, h5 q hq]
    simp [calcMergeEvents, h4]

/-- Witness for C3: the request from section `1` of the two-section network,
targeting the root. -/
theorem merge_preamble_witness :
    (mergeSections witNet [true]).nodes = witNet.nodes ∧
    mapFind? (mergeSections witNet [true]).pendingMerges (pfxShorten [true]) =
      some (pmFromPfxs ((mapKeys witNet.nodes).filter
        (fun q => isAnc (pfxShorten [true]) q))) :=
  ⟨(merge_preamble witNet [true] (by decide) (by decide) (by decide)
      (fun c h => by simp [witNet, mapKeys] at h) (by decide) (by decide)).1,
   (merge_preamble witNet [true] (by decide) (by decide) (by decide)
      (fun c h => by simp [witNet, mapKeys] at h) (by decide) (by decide)).2.1⟩

/-! ## Claim C4: merge finalisation -/

theorem mapErase_none {α : Type} {m : SMap α} {q : Pfx} (k : Pfx)
    (h : mapFind? m q = none) : mapFind? (mapErase m k) q = none := by
  by_cases hk : k = q
  · rw [hk, mapFind?_erase_self]
  · rw [mapFind?_erase_ne _ hk]
    exact h

theorem smapfold_erase_none {α : Type} {m : SMap α} {q : Pfx} (D : List Pfx)
    (h : mapFind? m q = none) : mapFind? (D.foldl mapErase m) q = none :=
  foldl_preserve mapErase (fun m' : SMap α => mapFind? m' q = none) D m h
    (fun _ k hm => mapErase_none k hm)

theorem smapfold_erase_notmem {α : Type} :
    ∀ (D : List Pfx) (m : SMap α) (q : Pfx), q ∉ D →
      mapFind? (D.foldl mapErase m) q = mapFind? m q := by
  intro D
  induction D with
  | nil => intro m q _; rfl
  | cons k rest ih =>
    intro m q hq
    simp only [List.foldl_cons]
    rw [ih _ _ (fun h => hq (List.mem_cons_of_mem _ h))]
    exact mapFind?_erase_ne m (fun h => hq (h ▸ List.mem_cons_self _ _))

theorem smapfold_erase_mem {α : Type} :
    ∀ (D : List Pfx) (m : SMap α) (q : Pfx), q ∈ D →
      mapFind? (D.foldl mapErase m) q = none := by
  intro D
  induction D with
  | nil => intro m q hq; cases hq
  | cons k rest ih =>
    intro m q hq
    simp only [List.foldl_cons]
    rcases List.mem_cons.mp hq with hk | hr
    · exact smapfold_erase_none rest (hk ▸ mapFind?_erase_self m q)
    · exact ih _ _ hr

theorem isAnc_comparable {q : Pfx} :
    ∀ {a b : Pfx}, isAnc a q = true → isAnc b q = true →
      isAnc a b = true ∨ isAnc b a = true := by
  induction q with
  | nil =>
    intro a b ha hb
    cases a with
    | nil => exact Or.inl (isAnc_nil b)
    | cons x xs => simp [isAnc] at ha
  | cons c cs ih =>
    intro a b ha hb
    cases a with
    | nil => exact Or.inl (isAnc_nil b)
    | cons x xs =>
      cases b with
      | nil => exact Or.inr (isAnc_nil _)
      | cons y ys =>
        simp only [isAnc, Bool.and_eq_true, beq_iff_eq] at ha hb
        have hxy : x = y := by rw [ha.1, hb.1]
        rcases ih ha.2 hb.2 with h' | h'
        · exact Or.inl (by simp [isAnc, hxy, h'])
        · exact Or.inr (by simp [isAnc, hxy, h'])

theorem nodup_key_eq {α : Type} {m : SMap α} (hnodup : (mapKeys m).Nodup) :
    ∀ {e e' : Pfx × α}, e ∈ m → e' ∈ m → e.1 = e'.1 → e = e' := by
  induction m with
  | nil => intro e e' he; cases he
  | cons f rest ih =>
    intro e e' he he' hk
    have hnd := List.nodup_cons.mp hnodup
    rcases List.mem_cons.mp he with he1 | he1 <;>
      rcases List.mem_cons.mp he' with he2 | he2
    · rw [he1, he2]
    · exfalso
      apply hnd.1
      rw [← he1, hk]
      exact List.mem_map_of_mem Prod.fst he2
    · exfalso
      apply hnd.1
      rw [← he2, ← hk]
      exact List.mem_map_of_mem Prod.fst he1
    · exact ih hnd.2 he1 he2 hk

theorem finaliseOne_spec (net : Network) (T : Pfx) (pm : PendingMerge) (merged : Section)
    (hf : mapFind? net.pendingMerges T = some pm)
    (hcomb : combineSections net.params
      ((mapKeys pm.complete).filterMap (fun q => mapFind? net.nodes q)) = some merged) :
    finaliseOne net T =
      { net with
        output := { net.output with churn := net.output.churn + 1 },
        pendingMerges := mapErase net.pendingMerges T,
        nodes := mapInsert ((mapKeys pm.complete).foldl mapErase net.nodes)
          merged.pfx merged,
        eventQueue := (mapKeys pm.complete).foldl mapErase net.eventQueue } := by
  unfold finaliseOne
  rw [hf]
  simp only []
  rw [hcomb]

theorem filterMap_congr_mem {α β : Type} {f g : α → Option β} :
    ∀ l : List α, (∀ a ∈ l, f a = g a) → l.filterMap f = l.filterMap g := by
  intro l
  induction l with
  | nil => intro _; rfl
  | cons a rest ih =>
    intro h
    simp only [List.filterMap_cons]
    rw [h a (List.mem_cons_self _ _), ih (fun x hx => h x (List.mem_cons_of_mem _ hx))]

theorem mapErase_eq_filter {α : Type} :
    ∀ (m : SMap α) (k : Pfx), mapErase m k = m.filter (fun e => decide (e.1 ≠ k)) := by
  intro m k
  induction m with
  | nil => rfl
  | cons f rest ih =>
    obtain ⟨k', v⟩ := f
    by_cases h : k' = k
    · simp [mapErase, h, List.filter_cons, ih]
    · simp [mapErase, h, List.filter_cons, ih]

theorem foldl_erase_filter {α : Type} :
    ∀ (D : List Pfx) (m : SMap α),
      D.foldl mapErase m = m.filter (fun e => decide (e.1 ∉ D)) := by
  intro D
  induction D with
  | nil =>
    intro m
    simp
  | cons k rest ih =>
    intro m
    simp only [List.foldl_cons]
    rw [ih, mapErase_eq_filter, List.filter_filter]
    apply List.filter_congr
    intro e _
    by_cases h1 : e.1 = k <;> by_cases h2 : e.1 ∈ rest <;> simp [h1, h2]

theorem finalise_fold_spec :
    ∀ (L : List (Pfx × PendingMerge)) (net : Network),
      (∀ e ∈ L, mapFind? net.pendingMerges e.1 = some e.2) →
      (L.map Prod.fst).Nodup →
      (∀ e ∈ L, mapKeys e.2.complete ≠ [] ∧ e.1 ∉ mapKeys e.2.complete ∧
        ∀ q ∈ mapKeys e.2.complete,
          ∃ s, mapFind? net.nodes q = some s ∧ s.pfx = e.1) →
      (∀ e1 ∈ L, ∀ e2 ∈ L, e1.1 ≠ e2.1 →
        (∀ q ∈ mapKeys e1.2.complete, q ∉ mapKeys e2.2.complete) ∧
        e1.1 ∉ mapKeys e2.2.complete) →
      ((L.map Prod.fst).foldl finaliseOne net).pendingMerges =
          (L.map Prod.fst).foldl mapErase net.pendingMerges ∧
      ((L.map Prod.fst).foldl finaliseOne net).output.churn =
          net.output.churn + L.length ∧
      (∀ e ∈ L,
        (∀ q ∈ mapKeys e.2.complete,
          mapFind? ((L.map Prod.fst).foldl finaliseOne net).nodes q = none ∧
          mapFind? ((L.map Prod.fst).foldl finaliseOne net).eventQueue q = none) ∧
        ∃ merged, combineSections net.params
            ((mapKeys e.2.complete).filterMap (fun q => mapFind? net.nodes q)) =
              some merged ∧
          merged.pfx = e.1 ∧
          mapFind? ((L.map Prod.fst).foldl finaliseOne net).nodes e.1 = some merged) ∧
      (∀ k : Pfx, (∀ e ∈ L, k ≠ e.1 ∧ k ∉ mapKeys e.2.complete) →
        mapFind? ((L.map Prod.fst).foldl finaliseOne net).nodes k =
          mapFind? net.nodes k ∧
        mapFind? ((L.map Prod.fst).foldl finaliseOne net).eventQueue k =
          mapFind? net.eventQueue k) := by
  intro L
  induction L with
  | nil =>
    intro net _ _ _ _
    refine ⟨rfl, by simp, ?_, ?_⟩
    · intro e he; cases he
    · intro k _; exact ⟨rfl, rfl⟩
  | cons e rest ih =>
    intro net hfind hnodup hpart hdisj
    -- data of the first merge
    have hps := hpart e (List.mem_cons_self _ _)
    obtain ⟨hps_ne, hps_notT, hps_present⟩ := hps
    -- the combined section exists and sits at the target prefix
    have hanc : ∀ s ∈ (mapKeys e.2.complete).filterMap (fun q => mapFind? net.nodes q),
        isAnc e.1 s.pfx = true := by
      intro s hs
      obtain ⟨q, hq, hqs⟩ := List.mem_filterMap.mp hs
      obtain ⟨s', hs', hpfx⟩ := hps_present q hq
      rw [hqs] at hs'
      cases hs'
      rw [hpfx]
      exact isAnc_refl _
    have hsinv : sideInv e.1 ((mapKeys e.2.complete).filterMap
        (fun q => mapFind? net.nodes q)) := by
      obtain ⟨q0, hq0⟩ := List.exists_mem_of_ne_nil _ hps_ne
      obtain ⟨s0, hs0, hs0p⟩ := hps_present q0 hq0
      exact Or.inl ⟨s0, List.mem_filterMap.mpr ⟨q0, hq0, hs0⟩, hs0p⟩
    have hgne : (mapKeys e.2.complete).filterMap (fun q => mapFind? net.nodes q) ≠ [] := by
      obtain ⟨q0, hq0⟩ := List.exists_mem_of_ne_nil _ hps_ne
      obtain ⟨s0, hs0, _⟩ := hps_present q0 hq0
      have hmem : s0 ∈ (mapKeys e.2.complete).filterMap (fun q => mapFind? net.nodes q) :=
        List.mem_filterMap.mpr ⟨q0, hq0, hs0⟩
      intro h
      rw [h] at hmem
      cases hmem
    obtain ⟨merged, hcomb, hmT⟩ :=
      combineLoop_pfx net.params e.1
        ((mapKeys e.2.complete).filterMap (fun q => mapFind? net.nodes q)).length
        ((mapKeys e.2.complete).filterMap (fun q => mapFind? net.nodes q))
        hgne (by omega) hanc hsinv
    have hcombS : combineSections net.params
        ((mapKeys e.2.complete).filterMap (fun q => mapFind? net.nodes q)) =
          some merged := hcomb
    have hspec := finaliseOne_spec net e.1 e.2 merged
      (hfind e (List.mem_cons_self _ _)) hcombS
    -- facts about the keys of the head merge
    have hnd : e.1 ∉ rest.map Prod.fst ∧ (rest.map Prod.fst).Nodup := by
      rw [List.map_cons] at hnodup
      exact List.nodup_cons.mp hnodup
    have hkey_ne_rest : ∀ e2 ∈ rest, e.1 ≠ e2.1 := by
      intro e2 he2 h
      exact hnd.1 (h ▸ List.mem_map_of_mem Prod.fst he2)
    -- lookups in the state after the head merge
    have hnodes1 : ∀ q : Pfx, q ≠ e.1 → q ∉ mapKeys e.2.complete →
        mapFind? (finaliseOne net e.1).nodes q = mapFind? net.nodes q := by
      intro q hq1 hq2
      rw [hspec]
      show mapFind? (mapInsert _ merged.pfx merged) q = _
      rw [mapFind?_insert_ne _ _ (by rw [hmT]; exact fun h => hq1 h.symm)]
      exact smapfold_erase_notmem _ _ _ hq2
    have hqueue1 : ∀ q : Pfx, q ∉ mapKeys e.2.complete →
        mapFind? (finaliseOne net e.1).eventQueue q = mapFind? net.eventQueue q := by
      intro q hq2
      rw [hspec]
      exact smapfold_erase_notmem _ _ _ hq2
    -- apply the induction hypothesis to the remaining merges
    have hdisj_er : ∀ e2 ∈ rest, (∀ q ∈ mapKeys e.2.complete, q ∉ mapKeys e2.2.complete) ∧
        e.1 ∉ mapKeys e2.2.complete := by
      intro e2 he2
      exact hdisj e (List.mem_cons_self _ _) e2 (List.mem_cons_of_mem _ he2)
        (hkey_ne_rest e2 he2)
    have hdisj_re : ∀ e2 ∈ rest, (∀ q ∈ mapKeys e2.2.complete, q ∉ mapKeys e.2.complete) ∧
        e2.1 ∉ mapKeys e.2.complete := by
      intro e2 he2
      exact hdisj e2 (List.mem_cons_of_mem _ he2) e (List.mem_cons_self _ _)
        (fun h => hkey_ne_rest e2 he2 h.symm)
    have hih := ih (finaliseOne net e.1)
      (by
        intro e2 he2
        rw [hspec]
        show mapFind? (mapErase net.pendingMerges e.1) e2.1 = some e2.2
        rw [mapFind?_erase_ne _ (hkey_ne_rest e2 he2)]
        exact hfind e2 (List.mem_cons_of_mem _ he2))
      hnd.2
      (by
        intro e2 he2
        obtain ⟨hne2, hnt2, hpres2⟩ := hpart e2 (List.mem_cons_of_mem _ he2)
        refine ⟨hne2, hnt2, ?_⟩
        intro q hq
        obtain ⟨s, hs, hp⟩ := hpres2 q hq
        refine ⟨s, ?_, hp⟩
        rw [hnodes1 q ?_ ?_]
        · exact hs
        · intro h
          exact (hdisj_er e2 he2).2 (h ▸ hq)
        · exact (hdisj_re e2 he2).1 q hq)
      (by
        intro e1 he1 e2 he2 hno
        exact hdisj e1 (List.mem_cons_of_mem _ he1) e2 (List.mem_cons_of_mem _ he2) hno)
    obtain ⟨ihp, ihc, ihm, ihf⟩ := hih
    -- the fold over the whole list
    have hfold_eq : ((e :: rest).map Prod.fst).foldl finaliseOne net =
        (rest.map Prod.fst).foldl finaliseOne (finaliseOne net e.1) := rfl
    refine ⟨?_, ?_, ?_, ?_⟩
    · rw [hfold_eq, ihp]
      have : (finaliseOne net e.1).pendingMerges = mapErase net.pendingMerges e.1 := by
        rw [hspec]
      rw [this]
      rfl
    · rw [hfold_eq, ihc]
      have : (finaliseOne net e.1).output.churn = net.output.churn + 1 := by
        rw [hspec]
      rw [this]
      simp only [List.length_cons]
      omega
    · intro e' he'
      rcases List.mem_cons.mp he' with he1 | her
      · -- the head merge's own conclusions
        rw [he1]
        constructor
        · intro q hq
          have hqframe := ihf q (by
            intro e2 he2
            exact ⟨fun h => (hdisj_re e2 he2).2 (h ▸ hq),
                   (hdisj_er e2 he2).1 q hq⟩)
          rw [hfold_eq]
          constructor
          · rw [hqframe.1, hspec]
            show mapFind? (mapInsert _ merged.pfx merged) q = none
            rw [mapFind?_insert_ne _ _ (by rw [hmT]; exact fun h => hps_notT (h ▸ hq))]
            exact smapfold_erase_mem _ _ _ hq
          · rw [hqframe.2, hspec]
            exact smapfold_erase_mem _ _ _ hq
        · refine ⟨merged, hcombS, hmT, ?_⟩
          have hTframe := ihf e.1 (by
            intro e2 he2
            exact ⟨hkey_ne_rest e2 he2, (hdisj_er e2 he2).2⟩)
          rw [hfold_eq, hTframe.1, hspec]
          show mapFind? (mapInsert _ merged.pfx merged) e.1 = some merged
          rw [hmT]
          exact mapFind?_insert_self _ _ _
      · -- a later merge's conclusions, transported back to the original state
        obtain ⟨ihnone, merged2, ihcomb, ihpfx, ihat⟩ := ihm e' her
        constructor
        · intro q hq
          rw [hfold_eq]
          exact ihnone q hq
        · refine ⟨merged2, ?_, ihpfx, by rw [hfold_eq]; exact ihat⟩
          rw [← ihcomb]
          have hparams : (finaliseOne net e.1).params = net.params := by rw [hspec]
          rw [hparams]
          congr 1
          apply filterMap_congr_mem
          intro q hq
          rw [hnodes1 q ?_ ?_]
          · intro h
            exact (hdisj_er e' her).2 (h ▸ hq)
          · exact (hdisj_re e' her).1 q hq
    · intro k hk
      have hkr := ihf k (fun e2 he2 => hk e2 (List.mem_cons_of_mem _ he2))
      have hke := hk e (List.mem_cons_self _ _)
      rw [hfold_eq]
      constructor
      · rw [hkr.1]
        exact hnodes1 k hke.1 hke.2
      · rw [hkr.2]
        exact hqueue1 k hke.2

theorem mapFind?_of_mem_nodup {α : Type} :
    ∀ {m : SMap α}, (mapKeys m).Nodup → ∀ {e : Pfx × α}, e ∈ m →
      mapFind? m e.1 = some e.2 := by
  intro m
  induction m with
  | nil => intro _ e he; cases he
  | cons f rest ih =>
    intro hnodup e he
    have hnd := List.nodup_cons.mp hnodup
    rcases List.mem_cons.mp he with he1 | he1
    · rw [he1]
      obtain ⟨k, v⟩ := f
      simp [mapFind?]
    · obtain ⟨k, v⟩ := f
      have hk : k ≠ e.1 := by
        intro h
        exact hnd.1 (by rw [h]; exact List.mem_map.mpr ⟨e, he1, rfl⟩)
      simp only [mapFind?, hk, if_false]
      exact ih hnd.2 he1

theorem done_keys_iff {net : Network} (hnodup : (mapKeys net.pendingMerges).Nodup) :
    ∀ e ∈ net.pendingMerges,
      (e.1 ∈ (net.pendingMerges.filter (fun e => pmIsDone e.2)).map Prod.fst ↔
        pmIsDone e.2 = true) := by
  intro e he
  constructor
  · intro h
    obtain ⟨e', he', hk⟩ := List.mem_map.mp h
    have hmem := List.mem_filter.mp he'
    have heq : e' = e := nodup_key_eq hnodup hmem.1 he hk
    rw [← heq]
    simpa using hmem.2
  · intro h
    exact List.mem_map_of_mem Prod.fst (List.mem_filter.mpr ⟨he, by simp [h]⟩)

/-- Claim C4: after the drain loop of `process_events` has emptied the
queues, exactly the pending merges whose completion flags are all true are
finalised: each such merge's participant sections and their event queues are
removed, the participants are combined pairwise (the highest-sorting prefix
first) into one section that is inserted under the (target) prefix, and
churn grows by one per finalised merge; merges that are not ready stay
pending.  The hypotheses are the pending-merge invariants of the post-drain
state: distinct, mutually incompatible targets, and participants present
under the target (their prefix fields already changed to the target by the
delivered `PrefixChange`). -/
theorem merge_finalisation (fuel : Nat) (net0 m : Network)
    (hdrain : drainLoop fuel net0 = some m)
    (hnodupP : (mapKeys m.pendingMerges).Nodup)
    (hincompat : ∀ e1 ∈ m.pendingMerges, ∀ e2 ∈ m.pendingMerges,
      e1.1 ≠ e2.1 → isCompat e1.1 e2.1 = false)
    (hdone : ∀ e ∈ m.pendingMerges, pmIsDone e.2 = true →
      mapKeys e.2.complete ≠ [] ∧ e.1 ∉ mapKeys e.2.complete ∧
      ∀ q ∈ mapKeys e.2.complete, isAnc e.1 q = true ∧
        ∃ s, mapFind? m.nodes q = some s ∧ s.pfx = e.1) :
    processEvents fuel net0 = some (captureStructure (finaliseMerges m)) ∧
    (captureStructure (finaliseMerges m)).pendingMerges =
      m.pendingMerges.filter (fun e => !pmIsDone e.2) ∧
    (captureStructure (finaliseMerges m)).output.churn =
      m.output.churn + (m.pendingMerges.filter (fun e => pmIsDone e.2)).length ∧
    ∀ e ∈ m.pendingMerges, pmIsDone e.2 = true →
      (∀ q ∈ mapKeys e.2.complete,
        mapFind? (captureStructure (finaliseMerges m)).nodes q = none ∧
        mapFind? (captureStructure (finaliseMerges m)).eventQueue q = none) ∧
      ∃ merged, combineSections m.params
          ((mapKeys e.2.complete).filterMap (fun q => mapFind? m.nodes q)) =
            some merged ∧
        merged.pfx = e.1 ∧
        mapFind? (captureStructure (finaliseMerges m)).nodes e.1 = some merged := by
  have hD : ∀ e ∈ m.pendingMerges.filter (fun e => pmIsDone e.2),
      e ∈ m.pendingMerges ∧ pmIsDone e.2 = true := by
    intro e he
    have h := List.mem_filter.mp he
    exact ⟨h.1, by simpa using h.2⟩
  have hspec := finalise_fold_spec (m.pendingMerges.filter (fun e => pmIsDone e.2)) m
    (fun e he => mapFind?_of_mem_nodup hnodupP (hD e he).1)
    (hnodupP.sublist (List.Sublist.map Prod.fst (List.filter_sublist _)))
    (by
      intro e he
      obtain ⟨hm, hd⟩ := hD e he
      obtain ⟨h1, h2, h3⟩ := hdone e hm hd
      exact ⟨h1, h2, fun q hq => (h3 q hq).2⟩)
    (by
      intro e1 he1 e2 he2 hne
      obtain ⟨hm1, hd1⟩ := hD e1 he1
      obtain ⟨hm2, hd2⟩ := hD e2 he2
      have hcompat := hincompat e1 hm1 e2 hm2 hne
      constructor
      · intro q hq1 hq2
        have ha1 := (((hdone e1 hm1 hd1).2.2) q hq1).1
        have ha2 := (((hdone e2 hm2 hd2).2.2) q hq2).1
        rcases isAnc_comparable ha1 ha2 with h' | h' <;>
          simp [isCompat, h'] at hcompat
      · intro hq
        have ha2 := (((hdone e2 hm2 hd2).2.2) e1.1 hq).1
        simp [isCompat, ha2] at hcompat)
  obtain ⟨hpend, hchurn, hmerge, _⟩ := hspec
  have hfo : finaliseMerges m =
      ((m.pendingMerges.filter (fun e => pmIsDone e.2)).map Prod.fst).foldl
        finaliseOne m := rfl
  refine ⟨by rw [processEvents, hdrain]; rfl, ?_, ?_, ?_⟩
  · show (finaliseMerges m).pendingMerges = _
    rw [hfo, hpend, foldl_erase_filter]
    apply List.filter_congr
    intro e he
    have hiff := done_keys_iff hnodupP e he
    by_cases hd : pmIsDone e.2 = true
    · simp [hd, hiff.mpr hd]
    · have : e.1 ∉ (m.pendingMerges.filter (fun e => pmIsDone e.2)).map Prod.fst :=
        fun h => hd (hiff.mp h)
      simp [this, Bool.eq_false_iff.mpr hd]
  · show (finaliseMerges m).output.churn = _
    rw [hfo, hchurn]
  · intro e he hd
    have hmem : e ∈ m.pendingMerges.filter (fun e => pmIsDone e.2) :=
      List.mem_filter.mpr ⟨he, by simp [hd]⟩
    obtain ⟨hnone, merged, hcomb, hpfx, hat⟩ := hmerge e hmem
    exact ⟨hnone, merged, hcomb, hpfx, hat⟩

/-- A ready pending merge targeting the root, both participants having
completed their `PrefixChange` (their prefix fields already read the
target). -/
def witDonePm : PendingMerge := ⟨[([false], true), ([true], true)]⟩

/-- The post-drain state for the C4 witness. -/
def witDoneNet : Network :=
  { nodes := [([false], ⟨[], [⟨1, 10⟩], 3, false⟩),
              ([true], ⟨[], [⟨2 ^ 63 + 5, 9⟩], 4, false⟩)],
    leftNodes := [], eventQueue := [],
    pendingMerges := [([], witDonePm)],
    params := witParams, output := ⟨0, 0, [], 0, 0, 0, 0, []⟩, rng := [] }

/-- Witness for C4: finalising the ready root merge of `witDoneNet`. -/
theorem merge_finalisation_witness :
    processEvents 0 witDoneNet = some (captureStructure (finaliseMerges witDoneNet)) ∧
    (captureStructure (finaliseMerges witDoneNet)).pendingMerges =
      witDoneNet.pendingMerges.filter (fun e => !pmIsDone e.2) ∧
    (captureStructure (finaliseMerges witDoneNet)).output.churn =
      witDoneNet.output.churn +
        (witDoneNet.pendingMerges.filter (fun e => pmIsDone e.2)).length :=
  have h := merge_finalisation 0 witDoneNet witDoneNet (by decide) (by decide)
    (by decide)
    (by
      intro e he hd
      have he' : e = ([], witDonePm) := by simpa [witDoneNet] using he
      subst he'
      refine ⟨by decide, by decide, ?_⟩
      intro q hq
      have hq' : q = [false] ∨ q = [true] := by simpa [witDonePm, mapKeys] using hq
      rcases hq' with h' | h' <;> subst h'
      · exact ⟨by decide, ⟨[], [⟨1, 10⟩], 3, false⟩, by decide, rfl⟩
      · exact ⟨by decide, ⟨[], [⟨2 ^ 63 + 5, 9⟩], 4, false⟩, by decide, rfl⟩)
  ⟨h.1, h.2.1, h.2.2.1⟩
